import Mathlib

/-!
A verification development for the file classification and ordering engine of
`rendergit.mjs`.  The JavaScript source is shallowly embedded: pure string and
list manipulation is translated directly; file-system reads and `git`
invocations appear as explicit parameters (`Option` for fallible reads and
queries); JavaScript numbers holding Unix timestamps are modelled as `Int`,
with `Number.POSITIVE_INFINITY` (the "unknown age" sentinel) modelled as the
`none` case of `Option Int`.
-/

namespace Rendergit

open scoped List

/-- A classified file record.  The source carries `{path, rel, size, decision}`;
only the repo-relative path `rel` participates in the ordering logic, so the
ordering development uses this projection. -/
structure FileInfo where
  rel : String
deriving DecidableEq, Repr

/-! ## String helpers

`localeCompare(_, "en", {sensitivity: "base"})` is modelled as case-insensitive
lexicographic comparison of code points (the locale-aware tie-breaks of ICU for
punctuation classes are outside the model; every comparison in this development
involves ASCII paths where the two coincide up to case folding). -/

/-- Lower-cased character list of a string (models `toLowerCase` /
`sensitivity: "base"` folding for the ASCII repertoire). -/
def lowerChars (s : String) : List Char :=
  s.data.map Char.toLower

/-- Three-way lexicographic comparison of character lists by code point. -/
def lexCmpChars : List Char → List Char → Int
  | [], [] => 0
  | [], _ :: _ => -1
  | _ :: _, [] => 1
  | a :: as, b :: bs =>
    if a < b then -1 else if b < a then 1 else lexCmpChars as bs

/-- Model of `a.localeCompare(b, "en", {sensitivity: "base"})`: sign-compatible
three-way comparison of the case-folded strings. -/
def localeCompareBase (a b : String) : Int :=
  lexCmpChars (lowerChars a) (lowerChars b)

/-- Model of `String.prototype.split("/")` on the character list: always
returns at least one (possibly empty) segment. -/
def splitSegChars : List Char → List (List Char)
  | [] => [[]]
  | c :: rest =>
    if c = '/' then [] :: splitSegChars rest
    else
      match splitSegChars rest with
      | [] => [[c]]
      | s :: ss => (c :: s) :: ss

/-- `rel.split("/")` as used when inserting a path into the tree. -/
def splitSegs (s : String) : List String :=
  (splitSegChars s.data).map (fun l => ⟨l⟩)

/-- Inverse of `splitSegChars`: join segments with `'/'`. -/
def joinSegChars : List (List Char) → List Char
  | [] => []
  | [x] => x
  | x :: y :: ys => x ++ '/' :: joinSegChars (y :: ys)

/-- JavaScript `trim`-style whitespace. -/
def wsChar (c : Char) : Bool :=
  c = ' ' || c = '\t' || c = '\n' || c = '\r' || c = '\x0b' || c = '\x0c'

/-- `String.prototype.trim()` on the character list. -/
def jsTrimChars (s : List Char) : List Char :=
  ((s.dropWhile wsChar).reverse.dropWhile wsChar).reverse

/-- Digits of a decimal numeral; `none` when empty or a non-digit occurs. -/
def digitsToNat : List Char → Option Nat
  | [] => none
  | [c] => if c.isDigit then some (c.toNat - '0'.toNat) else none
  | c :: rest =>
    if c.isDigit then
      (digitsToNat rest).map (fun n => (c.toNat - '0'.toNat) * 10 ^ rest.length + n)
    else none

/-- Model of `Number(s.trim())` followed by `Number.isFinite`, restricted to
the decimal-integer fragment JavaScript and git actually exchange here:
an all-whitespace string coerces to `0`, an optionally signed run of decimal
digits to its value, and anything else (including non-numeric tokens, which
coerce to `NaN`) to `none`. -/
def jsNumberFinite (s : String) : Option Int :=
  let t := jsTrimChars s.data
  if t = [] then some 0
  else
    match t with
    | '-' :: ds => (digitsToNat ds).map (fun n => -(n : Int))
    | '+' :: ds => (digitsToNat ds).map (fun n => (n : Int))
    | ds => (digitsToNat ds).map (fun n => (n : Int))

/-- Accumulator pass for whitespace tokenisation. -/
def wsTokensGo : List Char → List Char → List String
  | acc, [] => if acc = [] then [] else [⟨acc.reverse⟩]
  | acc, c :: rest =>
    if wsChar c then
      if acc = [] then wsTokensGo [] rest
      else ⟨acc.reverse⟩ :: wsTokensGo [] rest
    else wsTokensGo (c :: acc) rest

/-- Model of `s.trim().split(/\s+/).filter(Boolean)`: the maximal runs of
non-whitespace characters of `s`, in order. -/
def wsTokens (s : String) : List String :=
  wsTokensGo [] s.data

/-- Model of `line.replace(/\r$/, "")`. -/
def stripTrailingCR (s : String) : String :=
  if s.data.getLast? = some '\r' then ⟨s.data.dropLast⟩ else s

/-! ## Extensions and the classifier -/

/-- `FORCE_TEXT_EXTENSIONS` from the source. -/
def FORCE_TEXT_EXTENSIONS : List String :=
  [".html", ".htm", ".xhtml", ".shtml"]

/-- `BINARY_EXTENSIONS` from the source. -/
def BINARY_EXTENSIONS : List String :=
  [".png", ".jpg", ".jpeg", ".gif", ".webp", ".bmp", ".ico", ".avif", ".heic", ".heif",
   ".pdf", ".zip", ".tar", ".gz", ".bz2", ".xz", ".7z", ".rar",
   ".mp3", ".mp4", ".mov", ".avi", ".mkv", ".wav", ".ogg", ".flac",
   ".ttf", ".otf", ".eot", ".woff", ".woff2",
   ".so", ".dll", ".dylib", ".class", ".jar", ".exe", ".bin"]

/-- `LARGE_DATA_EXTENSIONS` from the source. -/
def LARGE_DATA_EXTENSIONS : List String :=
  [".csv", ".json", ".pem"]

/-- Suffix of `l` starting at its last `'.'`; `[]` when `l` has no dot. -/
def lastDotSuffix : List Char → List Char
  | [] => []
  | c :: rest =>
    let s := lastDotSuffix rest
    if s ≠ [] then s else if c = '.' then c :: rest else []

/-- Model of POSIX `path.extname` on a path string: the suffix of the basename
from its last dot, except that a dot in leading position (hidden files such as
`.git`) and the special name `..` yield the empty extension. -/
def extname (p : String) : String :=
  let base := ((splitSegChars p.data).getLast?).getD []
  if base = ['.', '.'] then ""
  else
    match base with
    | [] => ""
    | _ :: rest => ⟨lastDotSuffix rest⟩

/-- `path.extname(filePath).toLowerCase()` as used by the classifier.  The
basename of the absolute path and of the repo-relative path agree, so the
extension is computed from the relative path. -/
def extnameLower (p : String) : String :=
  ⟨(extname p).data.map Char.toLower⟩

/-- Continuation byte test for UTF-8 (`0x80 ≤ b ≤ 0xBF`). -/
def utf8Cont (b : Nat) : Bool :=
  0x80 ≤ b && b ≤ 0xBF

/-- WHATWG UTF-8 validity of a byte list (what `TextDecoder("utf-8",
{fatal : true})` accepts: well-formed sequences, no overlongs, no surrogates,
and no truncated tail). -/
def validUtf8 : List Nat → Bool
  | [] => true
  | b :: rest =>
    if b ≤ 0x7F then validUtf8 rest
    else if 0xC2 ≤ b && b ≤ 0xDF then
      match rest with
      | c1 :: rest2 => utf8Cont c1 && validUtf8 rest2
      | [] => false
    else if b = 0xE0 then
      match rest with
      | c1 :: c2 :: rest2 => (0xA0 ≤ c1 && c1 ≤ 0xBF) && utf8Cont c2 && validUtf8 rest2
      | _ => false
    else if b = 0xED then
      match rest with
      | c1 :: c2 :: rest2 => (0x80 ≤ c1 && c1 ≤ 0x9F) && utf8Cont c2 && validUtf8 rest2
      | _ => false
    else if 0xE1 ≤ b && b ≤ 0xEF then
      match rest with
      | c1 :: c2 :: rest2 => utf8Cont c1 && utf8Cont c2 && validUtf8 rest2
      | _ => false
    else if b = 0xF0 then
      match rest with
      | c1 :: c2 :: c3 :: rest2 =>
        (0x90 ≤ c1 && c1 ≤ 0xBF) && utf8Cont c2 && utf8Cont c3 && validUtf8 rest2
      | _ => false
    else if 0xF1 ≤ b && b ≤ 0xF3 then
      match rest with
      | c1 :: c2 :: c3 :: rest2 => utf8Cont c1 && utf8Cont c2 && utf8Cont c3 && validUtf8 rest2
      | _ => false
    else if b = 0xF4 then
      match rest with
      | c1 :: c2 :: c3 :: rest2 =>
        (0x80 ≤ c1 && c1 ≤ 0x8F) && utf8Cont c2 && utf8Cont c3 && validUtf8 rest2
      | _ => false
    else false

/-- Model of `looksBinary(filePath)`.  The byte content of the file is passed
explicitly: `none` models a failed `open`/`read` (the `catch` branch), `some
bytes` the file content, of which the source reads at most the first 8192
bytes. -/
def looksBinary (filePath : String) (content : Option (List Nat)) : Bool :=
  let ext := extnameLower filePath
  if FORCE_TEXT_EXTENSIONS.contains ext then false
  else if BINARY_EXTENSIONS.contains ext then true
  else
    match content with
    | none => true
    | some bytes =>
      let head := bytes.take 8192
      if head.contains 0 then true
      else !validUtf8 head

/-- Classification reasons. -/
inductive Reason where
  | ok
  | binary
  | ignored
  | tooLarge
deriving DecidableEq, Repr

/-- A classification decision (`{include, reason}` in the source). -/
structure Decision where
  included : Bool
  reason : Reason
deriving DecidableEq, Repr

/-- Substring occurrence test on character lists (model of
`String.prototype.includes`). -/
def hasInfix (needle : List Char) : List Char → Bool
  | [] => needle.isEmpty
  | c :: rest => needle.isPrefixOf (c :: rest) || hasInfix needle rest

/-- Model of `decideFile`.  `rel` is the repo-relative posix path (the source
computes it from `filePath` and `repoRoot`); `size` is the result of the
best-effort `stat` (already defaulted to `0` on failure by the caller of this
model); `content` is as in `looksBinary`. -/
def decideFile (rel : String) (size : Nat) (maxBytes : Nat) (content : Option (List Nat)) :
    Decision :=
  if rel = ".git" || (".git/".data).isPrefixOf rel.data || hasInfix ("/.git/".data) rel.data then
    ⟨false, .ignored⟩
  else if size > maxBytes && LARGE_DATA_EXTENSIONS.contains (extnameLower rel) then
    ⟨false, .tooLarge⟩
  else if looksBinary rel content then
    ⟨true, .binary⟩
  else
    ⟨true, .ok⟩

/-! ## History age resolver

`gatherOldestCommitTimes` is modelled with its two external `git log` calls as
parameters: `bulkOut` is the bulk query's stdout already split on `"\n"`
(`none` models the `catch` around the bulk query), and `fallbackOut rel` is the
stdout of the per-file query for `rel` (`none` models its `catch`).  The
JavaScript `Map` of ages is an insertion-ordered association list; the `Set`
of pending paths is an insertion-ordered duplicate-free list. -/

/-- The oldest-commit-time record (`fileAges` in the source). -/
abbrev AgeMap := List (String × Int)

/-- JavaScript `Map.prototype.set`: replace in place if the key is present,
append otherwise. -/
def assocSet : AgeMap → String → Int → AgeMap
  | [], k, v => [(k, v)]
  | (k', v') :: rest, k, v =>
    if k' = k then (k, v) :: rest else (k', v') :: assocSet rest k v

/-- `Array.from(new Set(relPaths))`: first occurrences, in order. -/
def dedupFirst : List String → List String
  | [] => []
  | x :: rest => if x ∈ dedupFirst rest then dedupFirst rest else x :: dedupFirst rest

/-- The mutable locals of the bulk-phase walk. -/
structure BulkState where
  currentTimestamp : Option Int
  pending : List String
  fileAges : AgeMap
deriving Repr

/-- The bulk-phase line walk of `gatherOldestCommitTimes`, one constructor of
the source loop per branch: a blank line resets the current timestamp; with no
current timestamp a line is parsed as a timestamp; otherwise the walk breaks
once `pending` is empty, and a line naming a pending path records the current
timestamp for it (never overwriting) and removes it from `pending`. -/
def bulkLoop : List String → BulkState → BulkState
  | [], st => st
  | rawLine :: rest, st =>
    let line := stripTrailingCR rawLine
    if line = "" then
      bulkLoop rest { st with currentTimestamp := none }
    else
      match st.currentTimestamp with
      | none =>
        match jsNumberFinite line with
        | some t => bulkLoop rest { st with currentTimestamp := some t }
        | none => bulkLoop rest st
      | some ts =>
        if st.pending = [] then st
        else if st.pending.contains line then
          if (List.lookup line st.fileAges).isSome then bulkLoop rest st
          else
            bulkLoop rest
              { st with pending := st.pending.erase line,
                        fileAges := assocSet st.fileAges line ts }
        else bulkLoop rest st

/-- The bulk phase: walk the bulk query output, or — when the query failed —
leave every unique path pending with no age recorded (the `catch` branch). -/
def runBulk (bulkOut : Option (List String)) (uniquePaths : List String) : BulkState :=
  match bulkOut with
  | none => ⟨none, uniquePaths, []⟩
  | some lines => bulkLoop lines ⟨none, uniquePaths, []⟩

/-- Timestamp extracted from a per-file `git log --follow` output:
`stdout.trim().split(/\s+/).filter(Boolean)`, then `Number` of the last part,
kept only when finite. -/
def fallbackAge (stdout : String) : Option Int :=
  match (wsTokens stdout).getLast? with
  | none => none
  | some tok => jsNumberFinite tok

/-- The fallback phase: one per-file query per still-pending path; failures
and unparsable outputs leave the age record untouched for that path. -/
def fallbackPhase (fallbackOut : String → Option String) (pending : List String)
    (ages : AgeMap) : AgeMap :=
  pending.foldl
    (fun acc rel =>
      match fallbackOut rel with
      | none => acc
      | some out =>
        match fallbackAge out with
        | some t => assocSet acc rel t
        | none => acc)
    ages

/-- Model of `gatherOldestCommitTimes(repoDir, relPaths)`. -/
def gatherOldestCommitTimes (bulkOut : Option (List String))
    (fallbackOut : String → Option String) (relPaths : List String) : AgeMap :=
  let uniquePaths := dedupFirst relPaths
  if uniquePaths = [] then []
  else
    let st := runBulk bulkOut uniquePaths
    if st.pending = [] then st.fileAges
    else fallbackPhase fallbackOut st.pending st.fileAges

/-! Specification-side view of the bulk output, used to state what the walk
computes: the spec describes the bulk query as emitting revision blocks, each
a commit timestamp line followed by the touched paths, with blank-line
boundaries. -/

/-- Render a list of revision blocks (timestamp line, touched-path lines) to
the line stream the walk consumes, with a blank boundary line after each
block. -/
def renderBlocks (blocks : List (String × List String)) : List String :=
  blocks.flatMap (fun b => b.1 :: (b.2 ++ [""]))

/-- Well-formed revision blocks: every timestamp line is a non-blank line
parsing to a finite number, and every path line is non-blank with no trailing
carriage return. -/
def WfBlocks (blocks : List (String × List String)) : Prop :=
  ∀ b ∈ blocks,
    (stripTrailingCR b.1 ≠ "" ∧ (jsNumberFinite (stripTrailingCR b.1)).isSome) ∧
    ∀ p ∈ b.2, stripTrailingCR p = p ∧ p ≠ ""

instance (blocks : List (String × List String)) : Decidable (WfBlocks blocks) := by
  unfold WfBlocks
  infer_instance

/-- The timestamp of the first revision block that touches `rel` —
specification of "the first time a requested path is seen, its block's
timestamp is recorded". -/
def firstAgeIn (blocks : List (String × List String)) (rel : String) : Option Int :=
  match blocks with
  | [] => none
  | b :: rest =>
    if b.2.contains rel then jsNumberFinite (stripTrailingCR b.1)
    else firstAgeIn rest rel

/-- Specification-side effect of one revision block with timestamp `t` on the
(pending, ages) pair, as the spec words it: each touched path that is still
pending is recorded with the block's timestamp (appended, never overwriting)
and removed from the pending set; all other lines leave the state alone. -/
def stepPaths (t : Int) : List String → List String × AgeMap → List String × AgeMap
  | [], pa => pa
  | p :: ps, (pend, ages) =>
    if pend.contains p then stepPaths t ps (pend.erase p, ages ++ [(p, t)])
    else stepPaths t ps (pend, ages)

/-- Specification-side scan of a block list: fold `stepPaths` over the blocks
whose timestamp line parses. -/
def specScan : List (String × List String) → List String × AgeMap → List String × AgeMap
  | [], pa => pa
  | b :: rest, pa =>
    specScan rest
      (match jsNumberFinite (stripTrailingCR b.1) with
       | some t => stepPaths t b.2 pa
       | none => pa)

/-! ## The path tree of `orderInfosByOldest`

The source builds nodes `{type: "file", info, age}` and `{type: "dir",
children: Map, age}`.  The insertion-ordered `Map` from path segment to child
node is embedded as the insertion-ordered sequence `Children` (a mutual
inductive rather than a nested `List`, so that all tree functions are
structurally recursive and kernel-computable). -/

mutual
inductive TreeNode : Type where
  | file (info : FileInfo) (age : Option Int) : TreeNode
  | dir (children : Children) : TreeNode
inductive Children : Type where
  | nil : Children
  | cons (seg : String) (node : TreeNode) (rest : Children) : Children
end

/-- `Map.prototype.get` on a children map. -/
def chLookup : Children → String → Option TreeNode
  | .nil, _ => none
  | .cons s n rest, k => if s = k then some n else chLookup rest k

/-- `Map.prototype.set` on a children map: replace in place, else append. -/
def chSet : Children → String → TreeNode → Children
  | .nil, k, v => .cons k v .nil
  | .cons s n rest, k, v =>
    if s = k then .cons k v rest else .cons s n (chSet rest k v)

/-- The per-info insertion loop of `orderInfosByOldest`, recursing over the
path segments.  The final segment stores a file node (`Map.set`, replacing any
existing entry); an intermediate segment descends into an existing directory,
creates a missing one, and — when the existing child is a *file* node — the
source dereferences `child.children`, which is `undefined`, and the next
`children.set` throws a `TypeError`: that crash is the `none` result. -/
def insertSegs : Children → List String → FileInfo → Option Int → Option Children
  | cs, [part], info, age => some (chSet cs part (.file info age))
  | cs, part :: rest, info, age =>
    match chLookup cs part with
    | none => (insertSegs .nil rest info age).map (fun sub => chSet cs part (.dir sub))
    | some (.dir sub) => (insertSegs sub rest info age).map (fun sub2 => chSet cs part (.dir sub2))
    | some (.file _ _) => none
  | _, [], _, _ => none

/-- Minimum of two ages, `none` being the `POSITIVE_INFINITY` sentinel. -/
def minAgeOpt : Option Int → Option Int → Option Int
  | none, b => b
  | some a, none => some a
  | some a, some b => some (min a b)

mutual
/-- The age of a node as consulted by the traversal's comparator: a file's
recorded age, a directory's minimum over its children — the value
`computeDirectoryAge` stores on each `dir` node before the traversal
(recomputed here instead of cached by mutation). -/
def nodeAge : TreeNode → Option Int
  | .file _ a => a
  | .dir cs => childrenMinAge cs
/-- Minimum age over a children map (`Number.POSITIVE_INFINITY`, i.e. `none`,
for an empty map). -/
def childrenMinAge : Children → Option Int
  | .nil => none
  | .cons _ n rest => minAgeOpt (nodeAge n) (childrenMinAge rest)
end

/-- Strict order on ages with `none` as `+∞`. -/
def ageLt : Option Int → Option Int → Bool
  | some a, some b => a < b
  | some _, none => true
  | none, _ => false

/-- `parentPath ? parentPath + "/" + seg : seg`. -/
def joinPath (pp seg : String) : String :=
  if pp = "" then seg else pp ++ "/" ++ seg

/-- The child comparator of `collectFilesByAge`: ages first (`ageA - ageB`,
with `Infinity === Infinity` comparing as equal), then `localeCompare` of the
full paths-so-far.  Returns the comparator's sign. -/
def entryCmp (parentPath : String) (a b : String × TreeNode) : Int :=
  let ageA := nodeAge a.2
  let ageB := nodeAge b.2
  if ageA ≠ ageB then (if ageLt ageA ageB then -1 else 1)
  else localeCompareBase (joinPath parentPath a.1) (joinPath parentPath b.1)

/-- Children map as an entry list (`Array.from(node.children.entries())`). -/
def chToList : Children → List (String × TreeNode)
  | .nil => []
  | .cons s n rest => (s, n) :: chToList rest

/-- Entry list back to a children map. -/
def chOfList : List (String × TreeNode) → Children
  | [] => .nil
  | (s, n) :: rest => .cons s n (chOfList rest)

/-- The non-strict comparator relation fed to the stable sort: JavaScript's
stable `Array.prototype.sort` keeps `a` before `b` exactly when
`cmp(a,b) ≤ 0` or they were in that order already, which a stable insertion
sort by `cmp(a,b) ≤ 0` reproduces. -/
def entryLe (parentPath : String) (a b : String × TreeNode) : Prop :=
  entryCmp parentPath a b ≤ 0

instance (parentPath : String) : DecidableRel (entryLe parentPath) :=
  fun a b => inferInstanceAs (Decidable (entryCmp parentPath a b ≤ 0))

mutual
/-- Sort every directory level of the tree by the `collectFilesByAge`
comparator.  The source sorts each level lazily during the traversal; since
the comparator of a level depends only on that level's (age-stable) subtrees
and the level's full paths, pre-sorting the whole tree and then walking it in
order is the same traversal. -/
def sortTree : String → TreeNode → TreeNode
  | _, .file info age => .file info age
  | pp, .dir cs =>
    .dir (chOfList (List.insertionSort (entryLe pp) (chToList (sortChildrenRec pp cs))))
/-- Recursively sort the subtrees of each child, extending the parent path. -/
def sortChildrenRec : String → Children → Children
  | _, .nil => .nil
  | pp, .cons s n rest => .cons s (sortTree (joinPath pp s) n) (sortChildrenRec pp rest)
end

mutual
/-- In-order traversal emitting file infos (the `out.push` order of
`collectFilesByAge` once levels are sorted). -/
def traverseNode : TreeNode → List FileInfo
  | .file info _ => [info]
  | .dir cs => traverseChildren cs
/-- Traversal of a children map in sequence order. -/
def traverseChildren : Children → List FileInfo
  | .nil => []
  | .cons _ n rest => traverseNode n ++ traverseChildren rest
end

/-- Model of `collectFilesByAge(node, parentPath, out)`: the list pushed to
`out`. -/
def collectFilesByAge (node : TreeNode) (parentPath : String) : List FileInfo :=
  traverseNode (sortTree parentPath node)

/-- Model of `orderInfosByOldest(infos, fileAges)`: build the segment tree
(`none` when the build throws on a file node hit while descending), compute
directory ages, and traverse oldest-first. -/
def orderInfosByOldest (infos : List FileInfo) (fileAges : AgeMap) :
    Option (List FileInfo) :=
  (infos.foldlM
      (fun cs info =>
        insertSegs cs (splitSegs info.rel) info (List.lookup info.rel fileAges))
      Children.nil).map
    (fun rootChildren => collectFilesByAge (.dir rootChildren) "")

mutual
/-- Segment paths of the file nodes below a node (a file node contributes the
empty relative path). -/
def pathsNode : TreeNode → List (List String)
  | .file _ _ => [[]]
  | .dir cs => pathsCh cs
/-- Segment paths of the file nodes reachable from a children map. -/
def pathsCh : Children → List (List String)
  | .nil => []
  | .cons s n rest => (pathsNode n).map (fun q => s :: q) ++ pathsCh rest
end

/-- Keys of a children map, in sequence order. -/
def keysCh : Children → List String
  | .nil => []
  | .cons s _ rest => s :: keysCh rest

mutual
/-- Well-formedness of a tree produced by the insertion loop: every directory
is non-empty (has at least one file below it). -/
def wfNode : TreeNode → Prop
  | .file _ _ => True
  | .dir cs => pathsCh cs ≠ [] ∧ wfCh cs
/-- Well-formedness of a children map: well-formed subtrees and duplicate-free
keys (a JavaScript `Map` cannot hold a key twice). -/
def wfCh : Children → Prop
  | .nil => True
  | .cons s n rest => wfNode n ∧ wfCh rest ∧ s ∉ keysCh rest
end

/-! ## Final assembly (`buildHtml` ordering) -/

/-- The top-level-readme test of `buildHtml`: no path separator, and the
lower-cased name is `readme` or starts with `readme.`. -/
def isTopLevelReadme (info : FileInfo) : Bool :=
  !(info.rel.data.contains '/') &&
    (lowerChars info.rel == "readme".data || ("readme.".data).isPrefixOf (lowerChars info.rel))

/-- The readme-pinning step of `buildHtml`: find the first top-level readme in
the sorted order; when its index is positive, splice it out and unshift it to
the front. -/
def relocateReadme (rendered : List FileInfo) : List FileInfo :=
  match List.findIdx? isTopLevelReadme rendered with
  | none => rendered
  | some 0 => rendered
  | some (i + 1) =>
    match rendered[i + 1]? with
    | some readmeInfo => readmeInfo :: rendered.eraseIdx (i + 1)
    | none => rendered

/-- The ordering pipeline of `buildHtml` for an already-computed age record:
age-mode tree ordering or filename-mode lexicographic sort of the included
infos, followed by the readme relocation. -/
def orderPipeline (sortMode : String) (infos : List FileInfo) (fileAges : AgeMap) :
    Option (List FileInfo) :=
  (if infos.length > 0 then
     if sortMode = "age" then orderInfosByOldest infos fileAges
     else
       some (List.insertionSort (fun a b => localeCompareBase a.rel b.rel ≤ 0) infos)
   else some infos).map relocateReadme

/-- The ordering portion of `buildHtml` including the call to the history age
resolver, which only the age branch performs. -/
def buildHtmlOrder (sortMode : String) (infos : List FileInfo)
    (bulkOut : Option (List String)) (fallbackOut : String → Option String) :
    Option (List FileInfo) :=
  orderPipeline sortMode infos
    (gatherOldestCommitTimes bulkOut fallbackOut (infos.map (·.rel)))

/-- A repo-relative path is a proper path-prefix of another when its segment
list is a proper prefix of the other's segment list. -/
def ProperPathPrefix (a b : String) : Prop :=
  splitSegs a <+: splitSegs b ∧ splitSegs a ≠ splitSegs b

instance (a b : String) : Decidable (ProperPathPrefix a b) := by
  unfold ProperPathPrefix
  infer_instance

/-! ## Theorems -/

theorem lexCmpChars_swap : ∀ a b : List Char, lexCmpChars b a = -lexCmpChars a b := by
  intro a
  induction a with
  | nil => intro b; cases b <;> simp [lexCmpChars]
  | cons x xs ih =>
    intro b
    cases b with
    | nil => simp [lexCmpChars]
    | cons y ys =>
      simp only [lexCmpChars]
      rcases lt_trichotomy x y with h | h | h
      · simp [h, lt_asymm h]
      · subst h; simp [lt_irrefl, ih]
      · simp [h, lt_asymm h]

theorem lexCmpChars_trans :
    ∀ a b c : List Char,
      lexCmpChars a b ≤ 0 → lexCmpChars b c ≤ 0 → lexCmpChars a c ≤ 0 := by
  intro a
  induction a with
  | nil =>
    intro b c _ _
    cases c <;> simp [lexCmpChars]
  | cons x xs ih =>
    intro b c hab hbc
    cases b with
    | nil => simp [lexCmpChars] at hab
    | cons y ys =>
      cases c with
      | nil => simp [lexCmpChars] at hbc
      | cons z zs =>
        simp only [lexCmpChars] at hab hbc ⊢
        rcases lt_trichotomy x y with h1 | h1 | h1
        · rcases lt_trichotomy y z with h2 | h2 | h2
          · simp [lt_trans h1 h2]
          · subst h2; simp [h1]
          · simp [h2, lt_asymm h2] at hbc
        · subst h1
          rcases lt_trichotomy x z with h2 | h2 | h2
          · simp [h2]
          · subst h2
            simp [lt_irrefl] at hab hbc ⊢
            exact ih _ _ hab hbc
          · simp [h2, lt_asymm h2] at hbc
        · simp [h1, lt_asymm h1] at hab

theorem localeCompareBase_total (a b : String) :
    localeCompareBase a b ≤ 0 ∨ localeCompareBase b a ≤ 0 := by
  unfold localeCompareBase
  have h := lexCmpChars_swap (lowerChars a) (lowerChars b)
  omega

theorem localeCompareBase_trans {a b c : String} (h1 : localeCompareBase a b ≤ 0)
    (h2 : localeCompareBase b c ≤ 0) : localeCompareBase a c ≤ 0 :=
  lexCmpChars_trans _ _ _ h1 h2

/-- C1.  Counterexample to the claimed ordering: with ages
`{a.txt ↦ 100, b/c.txt ↦ 50}` and `b/d.txt` unresolved, the aggregator does
*not* produce `b/c.txt, a.txt, b/d.txt` — the depth-first traversal keeps
directory `b`'s whole subtree (age 50) ahead of `a.txt` (age 100). -/
theorem age_order_example_not_as_claimed :
    orderInfosByOldest [⟨"a.txt"⟩, ⟨"b/c.txt"⟩, ⟨"b/d.txt"⟩]
        [("a.txt", 100), ("b/c.txt", 50)] ≠
      some [⟨"b/c.txt"⟩, ⟨"a.txt"⟩, ⟨"b/d.txt"⟩] := by
  decide

/-- C1 (amended).  In age-sort mode, given included files `a.txt`, `b/c.txt`,
`b/d.txt` and an AgeRecord mapping `a.txt` to 100 and `b/c.txt` to 50 with no
entry for `b/d.txt`, the aggregator orders `b/c.txt`, then `b/d.txt`, then
`a.txt`: directory `b`'s propagated age 50 beats `a.txt`'s 100, so all of `b`
precedes `a.txt`, and the unknown-age `d.txt` sorts last within `b`. -/
theorem age_order_example :
    orderInfosByOldest [⟨"a.txt"⟩, ⟨"b/c.txt"⟩, ⟨"b/d.txt"⟩]
        [("a.txt", 100), ("b/c.txt", 50)] =
      some [⟨"b/c.txt"⟩, ⟨"b/d.txt"⟩, ⟨"a.txt"⟩] := by
  decide

/-- C5.  Counterexample: `a/.git` — a path whose *final* segment equals
`.git` — is not ignored by the classifier (here it is included as `ok`),
contradicting the claim that any path with a `.git` segment is ignored. -/
theorem decideFile_git_final_segment_not_ignored :
    decideFile ("a/.git") 5 100 (some []) = ⟨true, .ok⟩ := by
  decide

/-- C5 (amended).  A candidate whose path is exactly `.git`, starts with
`.git/`, or contains `/.git/` — i.e. equals `.git` or has a non-final segment
`.git` — is classified `{include: false, reason: "ignored"}` regardless of
size, extension or content: the check precedes the too-large and binary
checks. -/
theorem decideFile_ignores_git_dir (rel : String) (size maxBytes : Nat)
    (content : Option (List Nat))
    (h : rel = ".git" ∨ (".git/".data).isPrefixOf rel.data = true ∨
      hasInfix ("/.git/".data) rel.data = true) :
    decideFile rel size maxBytes content = ⟨false, .ignored⟩ := by
  unfold decideFile
  rcases h with h | h | h <;> simp [h]

/-- C5 witness: the amended theorem applied to `.git/config`. -/
theorem decideFile_ignores_git_dir_witness :
    ((".git/".data).isPrefixOf (".git/config".data) = true) ∧
      decideFile (".git/config") 5 100 (some []) = ⟨false, .ignored⟩ :=
  ⟨by decide, decideFile_ignores_git_dir _ 5 100 (some []) (Or.inr (Or.inl (by decide)))⟩

theorem relocate_of_findIdx (l : List FileInfo) (i : Nat)
    (h : List.findIdx? isTopLevelReadme l = some i) :
    ∃ x, l[i]? = some x ∧ relocateReadme l = x :: l.eraseIdx i ∧
      isTopLevelReadme x = true ∧ x.rel.data.contains '/' = false := by
  obtain ⟨hlt, hidx⟩ := List.findIdx?_eq_some_iff_findIdx_eq.mp h
  refine ⟨l[i], List.getElem?_eq_getElem hlt, ?_, ?_, ?_⟩
  · cases i with
    | zero =>
      cases l with
      | nil => simp at hlt
      | cons a t => simp [relocateReadme, h, List.eraseIdx]
    | succ j =>
      simp only [relocateReadme, h, List.getElem?_eq_getElem hlt]
  · have := @List.findIdx_getElem _ isTopLevelReadme l (hidx ▸ hlt)
    simpa [hidx] using this
  · have hx : isTopLevelReadme l[i] = true := by
      have := @List.findIdx_getElem _ isTopLevelReadme l (hidx ▸ hlt)
      simpa [hidx] using this
    unfold isTopLevelReadme at hx
    simp only [Bool.and_eq_true, Bool.not_eq_true'] at hx
    exact hx.1

theorem cons_eraseIdx_perm {α : Type} (l : List α) (i : Nat) (x : α)
    (h : l[i]? = some x) : x :: l.eraseIdx i ~ l := by
  have hlt : i < l.length := by
    by_contra hge
    rw [List.getElem?_eq_none (by omega)] at h
    exact Option.noConfusion h
  have hx : l[i] = x := by
    rw [List.getElem?_eq_getElem hlt] at h
    exact Option.some.inj h
  have hsplit : l = l.take i ++ x :: l.drop (i + 1) := by
    conv_lhs => rw [← List.take_append_drop i l]
    rw [List.drop_eq_getElem_cons hlt, hx]
  rw [List.eraseIdx_eq_take_drop_succ]
  calc x :: (l.take i ++ l.drop (i + 1)) ~ l.take i ++ x :: l.drop (i + 1) :=
        List.perm_middle.symm
    _ = l := hsplit.symm

theorem relocateReadme_perm (l : List FileInfo) : relocateReadme l ~ l := by
  cases h : List.findIdx? isTopLevelReadme l with
  | none => simp [relocateReadme, h]
  | some i =>
    obtain ⟨x, hx, hrel, _, _⟩ := relocate_of_findIdx l i h
    rw [hrel]
    exact cons_eraseIdx_perm l i x hx

/-- C6.  After the sort (either mode), if some included top-level file has a
name that lowercases to `readme` or starts with `readme.`, then the *first*
such file in the sorted order (`List.findIdx?` position `i`) is moved to
position 0, the relative order of all other elements is unchanged
(the result is exactly that element consed onto the list with position `i`
erased), and the relocated element is never a nested path. -/
theorem readme_relocation (l : List FileInfo) (i : Nat)
    (h : List.findIdx? isTopLevelReadme l = some i) :
    ∃ x, l[i]? = some x ∧ relocateReadme l = x :: l.eraseIdx i ∧
      isTopLevelReadme x = true ∧ x.rel.data.contains '/' = false :=
  relocate_of_findIdx l i h

/-- C6 witness: in the sorted order `a.txt, README.md, sub/README.md` the
top-level readme at index 1 is pinned to the front and the nested one is not
relocated. -/
theorem readme_relocation_witness :
    List.findIdx? isTopLevelReadme [⟨"a.txt"⟩, ⟨"README.md"⟩, ⟨"sub/README.md"⟩] = some 1 ∧
      ∃ x, ([⟨"a.txt"⟩, ⟨"README.md"⟩, ⟨"sub/README.md"⟩] : List FileInfo)[1]? = some x ∧
        relocateReadme [⟨"a.txt"⟩, ⟨"README.md"⟩, ⟨"sub/README.md"⟩] =
          x :: List.eraseIdx [⟨"a.txt"⟩, ⟨"README.md"⟩, ⟨"sub/README.md"⟩] 1 ∧
        isTopLevelReadme x = true ∧ x.rel.data.contains '/' = false :=
  ⟨by decide, readme_relocation [⟨"a.txt"⟩, ⟨"README.md"⟩, ⟨"sub/README.md"⟩] 1 (by decide)⟩

/-- C9.  In filename sort mode the history age resolver is never consulted:
the result does not depend on the history query outputs at all, and the order
before the readme relocation is exactly the included list sorted by the
case-insensitive lexicographic comparison of repo-relative paths — a
permutation of the input, sorted under that comparison. -/
theorem filename_mode_no_history (infos : List FileInfo)
    (bulkOut bulkOut' : Option (List String))
    (fallbackOut fallbackOut' : String → Option String) :
    buildHtmlOrder ("filename") infos bulkOut fallbackOut =
        buildHtmlOrder ("filename") infos bulkOut' fallbackOut' ∧
      buildHtmlOrder ("filename") infos bulkOut fallbackOut =
        some (relocateReadme
          (List.insertionSort (fun a b => localeCompareBase a.rel b.rel ≤ 0) infos)) ∧
      List.insertionSort (fun a b => localeCompareBase a.rel b.rel ≤ 0) infos ~ infos ∧
      List.Sorted (fun a b => localeCompareBase a.rel b.rel ≤ 0)
        (List.insertionSort (fun a b => localeCompareBase a.rel b.rel ≤ 0) infos) := by
  refine ⟨?_, ?_, List.perm_insertionSort _ infos, ?_⟩
  · rfl
  · unfold buildHtmlOrder orderPipeline
    by_cases h : infos.length > 0
    · simp [h]
    · have : infos = [] := List.length_eq_zero.mp (by omega)
      subst this
      simp
  · exact @List.sorted_insertionSort _ _ _
      ⟨fun a b => localeCompareBase_total a.rel b.rel⟩
      ⟨fun _ _ _ => localeCompareBase_trans⟩ infos

theorem looksBinary_iff (rel : String) (content : Option (List Nat)) :
    looksBinary rel content = true ↔
      FORCE_TEXT_EXTENSIONS.contains (extnameLower rel) = false ∧
        (BINARY_EXTENSIONS.contains (extnameLower rel) = true ∨ content = none ∨
          ∃ bytes, content = some bytes ∧
            ((bytes.take 8192).contains 0 = true ∨ validUtf8 (bytes.take 8192) = false)) := by
  unfold looksBinary
  by_cases hft : extnameLower rel ∈ FORCE_TEXT_EXTENSIONS
  · simp [hft]
  · by_cases hbin : extnameLower rel ∈ BINARY_EXTENSIONS
    · simp [hft, hbin]
    · cases content with
      | none => simp [hft, hbin]
      | some bytes =>
        by_cases hz : (0 : Nat) ∈ bytes.take 8192
        · simp [hft, hbin, hz]
        · by_cases hv : validUtf8 (bytes.take 8192) = true
          · simp [hft, hbin, hz, hv]
          · have hv' : validUtf8 (bytes.take 8192) = false := eq_false_of_ne_true hv
            simp [hft, hbin, hz, hv']

/-- C4.  For a candidate that is neither ignored (`.git` rule) nor too large
(`LARGE_DATA` size gate), the classifier always *includes* the file; its
reason is `binary` exactly when the force-text allow-list does not match the
extension and either the binary deny-list matches, or the content is
unreadable, or the first 8192 bytes contain a zero byte or are not valid
UTF-8; otherwise the reason is `ok`. -/
theorem classifier_binary_characterization (rel : String) (size maxBytes : Nat)
    (content : Option (List Nat))
    (hIgn : ¬(rel = ".git" ∨ (".git/".data).isPrefixOf rel.data = true ∨
      hasInfix ("/.git/".data) rel.data = true))
    (hLarge : ¬(size > maxBytes ∧ LARGE_DATA_EXTENSIONS.contains (extnameLower rel) = true)) :
    (decideFile rel size maxBytes content).included = true ∧
      ((decideFile rel size maxBytes content).reason = .binary ↔
        FORCE_TEXT_EXTENSIONS.contains (extnameLower rel) = false ∧
          (BINARY_EXTENSIONS.contains (extnameLower rel) = true ∨ content = none ∨
            ∃ bytes, content = some bytes ∧
              ((bytes.take 8192).contains 0 = true ∨ validUtf8 (bytes.take 8192) = false))) ∧
      ((decideFile rel size maxBytes content).reason = .ok ∨
        (decideFile rel size maxBytes content).reason = .binary) := by
  have h1 : ¬ rel = ".git" := fun h => hIgn (Or.inl h)
  have h2 : (".git/".data).isPrefixOf rel.data = false :=
    eq_false_of_ne_true (fun h => hIgn (Or.inr (Or.inl h)))
  have h3 : hasInfix ("/.git/".data) rel.data = false :=
    eq_false_of_ne_true (fun h => hIgn (Or.inr (Or.inr h)))
  have h4 : ¬(size > maxBytes ∧
      LARGE_DATA_EXTENSIONS.contains (extnameLower rel) = true) := hLarge
  cases hb : looksBinary rel content with
  | true =>
    have : decideFile rel size maxBytes content = ⟨true, .binary⟩ := by
      unfold decideFile
      simp [h1, h2, h3, hb]
      intro hgt
      exact fun hc => h4 ⟨hgt, by simpa using hc⟩
    rw [this]
    refine ⟨rfl, ?_, Or.inr rfl⟩
    simpa using (looksBinary_iff rel content).mp hb
  | false =>
    have : decideFile rel size maxBytes content = ⟨true, .ok⟩ := by
      unfold decideFile
      simp [h1, h2, h3, hb]
      intro hgt
      exact fun hc => h4 ⟨hgt, by simpa using hc⟩
    rw [this]
    refine ⟨rfl, ?_, Or.inl rfl⟩
    constructor
    · intro h; exact absurd h (by simp)
    · intro h
      have : looksBinary rel content = true := (looksBinary_iff rel content).mpr h
      rw [hb] at this
      exact Bool.noConfusion this

/-- C4 witness: a `.txt` file whose first bytes contain a zero byte is
included with reason `binary`. -/
theorem classifier_binary_characterization_witness :
    (¬(("a.txt" : String) = ".git" ∨ (".git/".data).isPrefixOf ("a.txt".data) = true ∨
        hasInfix ("/.git/".data) ("a.txt".data) = true)) ∧
      (decideFile ("a.txt") 5 100 (some [65, 0, 66])).included = true ∧
        ((decideFile ("a.txt") 5 100 (some [65, 0, 66])).reason = .binary ↔
          FORCE_TEXT_EXTENSIONS.contains (extnameLower ("a.txt")) = false ∧
            (BINARY_EXTENSIONS.contains (extnameLower ("a.txt")) = true ∨
              some [65, 0, 66] = none ∨
              ∃ bytes, some [65, 0, 66] = some bytes ∧
                ((bytes.take 8192).contains 0 = true ∨
                  validUtf8 (bytes.take 8192) = false))) ∧
        ((decideFile ("a.txt") 5 100 (some [65, 0, 66])).reason = .ok ∨
          (decideFile ("a.txt") 5 100 (some [65, 0, 66])).reason = .binary) :=
  ⟨by decide, classifier_binary_characterization ("a.txt") 5 100 (some [65, 0, 66])
    (by decide) (by decide)⟩

/-! ### Association-list and bulk-walk lemmas -/

theorem lookup_append_of_none {A B : AgeMap} {q : String} (h : List.lookup q A = none) :
    List.lookup q (A ++ B) = List.lookup q B := by
  induction A with
  | nil => rfl
  | cons kv rest ih =>
    obtain ⟨k, v⟩ := kv
    by_cases hk : q = k
    · subst hk; simp [List.lookup] at h
    · have hbeq : (q == k) = false := by simp [hk]
      simp only [List.lookup, List.cons_append, hbeq] at h ⊢
      exact ih h

theorem lookup_append_of_ne {A : AgeMap} {q p : String} {t : Int} (h : q ≠ p) :
    List.lookup q (A ++ [(p, t)]) = List.lookup q A := by
  induction A with
  | nil =>
    have hbeq : (q == p) = false := by simp [h]
    simp [List.lookup, hbeq]
  | cons kv rest ih =>
    obtain ⟨k, v⟩ := kv
    by_cases hk : q = k
    · subst hk; simp [List.lookup]
    · have hbeq : (q == k) = false := by simp [hk]
      simp only [List.lookup, List.cons_append, hbeq]
      exact ih

theorem lookup_append_self {A : AgeMap} {p : String} {t : Int}
    (h : List.lookup p A = none) : List.lookup p (A ++ [(p, t)]) = some t := by
  rw [lookup_append_of_none h]
  simp [List.lookup]

theorem assocSet_eq_append {A : AgeMap} {p : String} {t : Int}
    (h : List.lookup p A = none) : assocSet A p t = A ++ [(p, t)] := by
  induction A with
  | nil => rfl
  | cons kv rest ih =>
    obtain ⟨k, v⟩ := kv
    by_cases hk : p = k
    · subst hk; simp [List.lookup] at h
    · have hbeq : (p == k) = false := by simp [hk]
      simp only [List.lookup, hbeq] at h
      simp only [assocSet, List.cons_append]
      rw [if_neg (fun hkp => hk hkp.symm)]
      rw [ih h]

theorem bulkLoop_pending_nil :
    ∀ (lines : List String) (st : BulkState), st.pending = [] →
      (bulkLoop lines st).fileAges = st.fileAges ∧ (bulkLoop lines st).pending = [] := by
  intro lines
  induction lines with
  | nil => intro st h; exact ⟨rfl, h⟩
  | cons rawLine rest ih =>
    intro st h
    unfold bulkLoop
    by_cases hempty : stripTrailingCR rawLine = ""
    · simp only [hempty, if_pos rfl]
      exact ih _ h
    · simp only [if_neg hempty]
      cases hts : st.currentTimestamp with
      | none =>
        dsimp only
        cases hnum : jsNumberFinite (stripTrailingCR rawLine) with
        | some t => exact ih _ h
        | none => exact ih _ h
      | some ts =>
        dsimp only
        rw [if_pos h]
        exact ⟨rfl, h⟩

theorem stepPaths_pending_nil (t : Int) :
    ∀ (ps : List String) (A : AgeMap), stepPaths t ps ([], A) = ([], A) := by
  intro ps
  induction ps with
  | nil => intro A; rfl
  | cons p rest ih => intro A; simp [stepPaths, ih]

theorem bulkLoop_cons_blank (line : String) (rest : List String) (st : BulkState)
    (h : stripTrailingCR line = "") :
    bulkLoop (line :: rest) st = bulkLoop rest { st with currentTimestamp := none } := by
  conv_lhs => rw [bulkLoop]
  simp only [h, if_pos]

theorem bulkLoop_cons_ts (line : String) (rest : List String) (st : BulkState) (t : Int)
    (hne : stripTrailingCR line ≠ "") (hts : st.currentTimestamp = none)
    (hnum : jsNumberFinite (stripTrailingCR line) = some t) :
    bulkLoop (line :: rest) st = bulkLoop rest { st with currentTimestamp := some t } := by
  conv_lhs => rw [bulkLoop]
  simp only [if_neg hne, hts, hnum]

theorem bulkLoop_cons_path_break (line : String) (rest : List String) (t : Int) (A : AgeMap)
    (hne : stripTrailingCR line ≠ "") :
    bulkLoop (line :: rest) ⟨some t, [], A⟩ = ⟨some t, [], A⟩ := by
  conv_lhs => rw [bulkLoop]
  simp only [if_neg hne]
  rfl

theorem bulkLoop_cons_path_record (line : String) (rest : List String) (t : Int)
    (P : List String) (A : AgeMap) (hstrip : stripTrailingCR line = line) (hne : line ≠ "")
    (hP : P ≠ []) (hc : P.contains line = true) (hlk : List.lookup line A = none) :
    bulkLoop (line :: rest) ⟨some t, P, A⟩ =
      bulkLoop rest ⟨some t, P.erase line, assocSet A line t⟩ := by
  have hmem : line ∈ P := by simpa using hc
  conv_lhs => rw [bulkLoop]
  rw [hstrip]
  simp only [if_neg hne]
  have h1 : stripTrailingCR line = line := hstrip
  simp only [hstrip, hlk, if_neg hP, hmem, if_pos, Option.isSome_none, Bool.false_eq_true,
    if_false]
  rw [if_pos hc]

theorem bulkLoop_cons_path_skip (line : String) (rest : List String) (t : Int)
    (P : List String) (A : AgeMap) (hstrip : stripTrailingCR line = line) (hne : line ≠ "")
    (hP : P ≠ []) (hc : P.contains line = false) :
    bulkLoop (line :: rest) ⟨some t, P, A⟩ = bulkLoop rest ⟨some t, P, A⟩ := by
  have hmem : line ∉ P := by simpa using hc
  conv_lhs => rw [bulkLoop]
  rw [hstrip]
  simp only [if_neg hne]
  simp only [hstrip, if_neg hP, hmem, if_false]
  rw [hc]
  simp

theorem stepPaths_invariant (t : Int) :
    ∀ (ps P : List String) (A : AgeMap),
      P.Nodup → (∀ p ∈ P, List.lookup p A = none) →
      (stepPaths t ps (P, A)).1.Nodup ∧
        (∀ p ∈ (stepPaths t ps (P, A)).1, List.lookup p (stepPaths t ps (P, A)).2 = none) := by
  intro ps
  induction ps with
  | nil => intro P A hnd hinv; exact ⟨hnd, hinv⟩
  | cons p ps ih =>
    intro P A hnd hinv
    by_cases hc : P.contains p
    · have hp : p ∈ P := by simpa using hc
      simp only [stepPaths, hc, if_pos]
      refine ih _ _ (hnd.erase p) ?_
      intro q hq
      have hqP : q ∈ P := List.mem_of_mem_erase hq
      have hqp : q ≠ p := ((List.Nodup.mem_erase_iff hnd).mp hq).1
      rw [lookup_append_of_ne hqp]
      exact hinv q hqP
    · have hc' : P.contains p = false := eq_false_of_ne_true hc
      simp only [stepPaths, hc', Bool.false_eq_true, if_false]
      exact ih _ _ hnd hinv

theorem stepPaths_not_in_paths (t : Int) (rel : String) :
    ∀ (ps P : List String) (A : AgeMap), rel ∉ ps →
      (rel ∈ (stepPaths t ps (P, A)).1 ↔ rel ∈ P) ∧
        List.lookup rel (stepPaths t ps (P, A)).2 = List.lookup rel A := by
  intro ps
  induction ps with
  | nil => intro P A _; exact ⟨Iff.rfl, rfl⟩
  | cons p ps ih =>
    intro P A hrel
    have hne : rel ≠ p := fun h => hrel (h ▸ List.mem_cons_self p ps)
    have hrel' : rel ∉ ps := fun h => hrel (List.mem_cons_of_mem p h)
    by_cases hc : P.contains p
    · simp only [stepPaths, hc, if_pos]
      obtain ⟨hiff, hlook⟩ := ih (P.erase p) (A ++ [(p, t)]) hrel'
      refine ⟨hiff.trans (List.mem_erase_of_ne hne), ?_⟩
      rw [hlook, lookup_append_of_ne hne]
    · have hc' : P.contains p = false := eq_false_of_ne_true hc
      simp only [stepPaths, hc', Bool.false_eq_true, if_false]
      exact ih P A hrel'

theorem stepPaths_not_pending (t : Int) (rel : String) :
    ∀ (ps P : List String) (A : AgeMap), rel ∉ P →
      rel ∉ (stepPaths t ps (P, A)).1 ∧
        List.lookup rel (stepPaths t ps (P, A)).2 = List.lookup rel A := by
  intro ps
  induction ps with
  | nil => intro P A h; exact ⟨h, rfl⟩
  | cons p ps ih =>
    intro P A hrel
    by_cases hc : P.contains p
    · have hp : p ∈ P := by simpa using hc
      have hne : rel ≠ p := fun h => hrel (h ▸ hp)
      simp only [stepPaths, hc, if_pos]
      obtain ⟨h1, h2⟩ := ih (P.erase p) (A ++ [(p, t)])
        (fun h => hrel (List.mem_of_mem_erase h))
      exact ⟨h1, by rw [h2, lookup_append_of_ne hne]⟩
    · have hc' : P.contains p = false := eq_false_of_ne_true hc
      simp only [stepPaths, hc', Bool.false_eq_true, if_false]
      exact ih P A hrel

theorem stepPaths_records (t : Int) (rel : String) :
    ∀ (ps P : List String) (A : AgeMap),
      rel ∈ ps → rel ∈ P → P.Nodup → (∀ p ∈ P, List.lookup p A = none) →
      List.lookup rel (stepPaths t ps (P, A)).2 = some t ∧
        rel ∉ (stepPaths t ps (P, A)).1 := by
  intro ps
  induction ps with
  | nil => intro P A h; exact absurd h (List.not_mem_nil rel)
  | cons p ps ih =>
    intro P A hmem hP hnd hinv
    by_cases hp : p = rel
    · subst hp
      have hc : P.contains p = true := by simpa using hP
      simp only [stepPaths, hc, if_pos]
      have hA : List.lookup p (A ++ [(p, t)]) = some t :=
        lookup_append_self (hinv p hP)
      have hout : p ∉ P.erase p := hnd.not_mem_erase
      obtain ⟨h1, h2⟩ := stepPaths_not_pending t p ps (P.erase p) (A ++ [(p, t)]) hout
      exact ⟨by rw [h2, hA], h1⟩
    · have hmem' : rel ∈ ps := by
        rcases List.mem_cons.mp hmem with h | h
        · exact absurd h.symm hp
        · exact h
      by_cases hc : P.contains p
      · have hpP : p ∈ P := by simpa using hc
        simp only [stepPaths, hc, if_pos]
        refine ih (P.erase p) (A ++ [(p, t)]) hmem'
          ((List.mem_erase_of_ne (fun h => hp h.symm)).mpr hP) (hnd.erase p) ?_
        intro q hq
        have hqP : q ∈ P := List.mem_of_mem_erase hq
        have hqp : q ≠ p := ((List.Nodup.mem_erase_iff hnd).mp hq).1
        rw [lookup_append_of_ne hqp]
        exact hinv q hqP
      · have hc' : P.contains p = false := eq_false_of_ne_true hc
        simp only [stepPaths, hc', Bool.false_eq_true, if_false]
        exact ih P A hmem' hP hnd hinv

theorem bulkLoop_block_paths (t : Int) :
    ∀ (ps rest P : List String) (A : AgeMap),
      (∀ p ∈ ps, stripTrailingCR p = p ∧ p ≠ "") →
      P.Nodup → (∀ p ∈ P, List.lookup p A = none) →
      (bulkLoop (ps ++ rest) ⟨some t, P, A⟩).fileAges =
          (bulkLoop rest ⟨some t, (stepPaths t ps (P, A)).1, (stepPaths t ps (P, A)).2⟩).fileAges ∧
        (bulkLoop (ps ++ rest) ⟨some t, P, A⟩).pending =
          (bulkLoop rest ⟨some t, (stepPaths t ps (P, A)).1, (stepPaths t ps (P, A)).2⟩).pending := by
  intro ps
  induction ps with
  | nil => intro rest P A _ _ _; exact ⟨rfl, rfl⟩
  | cons p ps ih =>
    intro rest P A hwf hnd hinv
    obtain ⟨hstrip, hne⟩ := hwf p (List.mem_cons_self p ps)
    have hne' : stripTrailingCR p ≠ "" := by rw [hstrip]; exact hne
    have hwf' : ∀ q ∈ ps, stripTrailingCR q = q ∧ q ≠ "" :=
      fun q hq => hwf q (List.mem_cons_of_mem p hq)
    rw [List.cons_append]
    by_cases hP : P = []
    · subst hP
      rw [bulkLoop_cons_path_break p (ps ++ rest) t A hne', stepPaths_pending_nil]
      obtain ⟨hA, hPd⟩ := bulkLoop_pending_nil rest ⟨some t, [], A⟩ rfl
      exact ⟨hA.symm, hPd.symm⟩
    · by_cases hc : P.contains p
      · have hpP : p ∈ P := by simpa using hc
        rw [bulkLoop_cons_path_record p (ps ++ rest) t P A hstrip hne hP hc (hinv p hpP)]
        rw [assocSet_eq_append (hinv p hpP)]
        have hinv' : ∀ q ∈ P.erase p, List.lookup q (A ++ [(p, t)]) = none := by
          intro q hq
          have hqP : q ∈ P := List.mem_of_mem_erase hq
          have hqp : q ≠ p := ((List.Nodup.mem_erase_iff hnd).mp hq).1
          rw [lookup_append_of_ne hqp]
          exact hinv q hqP
        have := ih rest (P.erase p) (A ++ [(p, t)]) hwf' (hnd.erase p) hinv'
        simpa [stepPaths, hpP] using this
      · have hc' : P.contains p = false := eq_false_of_ne_true hc
        have hpn : p ∉ P := by simpa using hc'
        rw [bulkLoop_cons_path_skip p (ps ++ rest) t P A hstrip hne hP hc']
        have := ih rest P A hwf' hnd hinv
        simpa [stepPaths, hpn] using this

theorem bulkLoop_blocks :
    ∀ (blocks : List (String × List String)) (P : List String) (A : AgeMap),
      WfBlocks blocks → P.Nodup → (∀ p ∈ P, List.lookup p A = none) →
      (bulkLoop (renderBlocks blocks) ⟨none, P, A⟩).fileAges = (specScan blocks (P, A)).2 ∧
        (bulkLoop (renderBlocks blocks) ⟨none, P, A⟩).pending = (specScan blocks (P, A)).1 := by
  intro blocks
  induction blocks with
  | nil => intro P A _ _ _; exact ⟨rfl, rfl⟩
  | cons b bs ih =>
    intro P A hwf hnd hinv
    have hb := hwf b (List.mem_cons_self b bs)
    have hwf' : WfBlocks bs := fun b' hb' => hwf b' (List.mem_cons_of_mem b hb')
    obtain ⟨t, ht⟩ := Option.isSome_iff_exists.mp hb.1.2
    have hstep := stepPaths_invariant t b.2 P A hnd hinv
    have hlines : renderBlocks (b :: bs) =
        b.1 :: (b.2 ++ ("" :: renderBlocks bs)) := by
      simp [renderBlocks]
    rw [hlines]
    rw [bulkLoop_cons_ts b.1 (b.2 ++ ("" :: renderBlocks bs)) ⟨none, P, A⟩ t hb.1.1 rfl ht]
    obtain ⟨hA1, hP1⟩ :=
      bulkLoop_block_paths t b.2 ("" :: renderBlocks bs) P A hb.2 hnd hinv
    rw [hA1, hP1]
    rw [bulkLoop_cons_blank ("") (renderBlocks bs)
      ⟨some t, (stepPaths t b.2 (P, A)).1, (stepPaths t b.2 (P, A)).2⟩ (by decide)]
    show (bulkLoop (renderBlocks bs)
        ⟨none, (stepPaths t b.2 (P, A)).1, (stepPaths t b.2 (P, A)).2⟩).fileAges =
        (specScan (b :: bs) (P, A)).2 ∧
      (bulkLoop (renderBlocks bs)
        ⟨none, (stepPaths t b.2 (P, A)).1, (stepPaths t b.2 (P, A)).2⟩).pending =
        (specScan (b :: bs) (P, A)).1
    obtain ⟨hA2, hP2⟩ := ih (stepPaths t b.2 (P, A)).1 (stepPaths t b.2 (P, A)).2
      hwf' hstep.1 hstep.2
    rw [hA2, hP2]
    simp [specScan, ht]

theorem specScan_not_pending (rel : String) :
    ∀ (blocks : List (String × List String)) (P : List String) (A : AgeMap), rel ∉ P →
      List.lookup rel (specScan blocks (P, A)).2 = List.lookup rel A ∧
        rel ∉ (specScan blocks (P, A)).1 := by
  intro blocks
  induction blocks with
  | nil => intro P A h; exact ⟨rfl, h⟩
  | cons b bs ih =>
    intro P A hrel
    cases ht : jsNumberFinite (stripTrailingCR b.1) with
    | some t =>
      simp only [specScan, ht]
      obtain ⟨h1, h2⟩ := stepPaths_not_pending t rel b.2 P A hrel
      obtain ⟨h3, h4⟩ := ih (stepPaths t b.2 (P, A)).1 (stepPaths t b.2 (P, A)).2 h1
      exact ⟨h3.trans h2, h4⟩
    | none =>
      simp only [specScan, ht]
      exact ih P A hrel

theorem specScan_lookup (rel : String) :
    ∀ (blocks : List (String × List String)) (P : List String) (A : AgeMap),
      WfBlocks blocks → rel ∈ P → P.Nodup → (∀ p ∈ P, List.lookup p A = none) →
      List.lookup rel (specScan blocks (P, A)).2 = firstAgeIn blocks rel ∧
        (rel ∈ (specScan blocks (P, A)).1 ↔ firstAgeIn blocks rel = none) := by
  intro blocks
  induction blocks with
  | nil =>
    intro P A _ hP _ hinv
    exact ⟨hinv rel hP, by simp [specScan, firstAgeIn, hP]⟩
  | cons b bs ih =>
    intro P A hwf hP hnd hinv
    have hb := hwf b (List.mem_cons_self b bs)
    have hwf' : WfBlocks bs := fun b' hb' => hwf b' (List.mem_cons_of_mem b hb')
    obtain ⟨t, ht⟩ := Option.isSome_iff_exists.mp hb.1.2
    simp only [specScan, ht]
    by_cases hc : b.2.contains rel
    · have hmem : rel ∈ b.2 := by simpa using hc
      obtain ⟨h1, h2⟩ := stepPaths_records t rel b.2 P A hmem hP hnd hinv
      obtain ⟨h3, h4⟩ :=
        specScan_not_pending rel bs (stepPaths t b.2 (P, A)).1 (stepPaths t b.2 (P, A)).2 h2
      have hfirst : firstAgeIn (b :: bs) rel = some t := by
        simp only [firstAgeIn, hc, if_pos, ht]
      rw [hfirst]
      refine ⟨by rw [h3, h1], ?_⟩
      constructor
      · intro h; exact absurd h h4
      · intro h; exact Option.noConfusion h
    · have hc' : b.2.contains rel = false := eq_false_of_ne_true hc
      have hnotin : rel ∉ b.2 := by simpa using hc'
      obtain ⟨hiff, hlook⟩ := stepPaths_not_in_paths t rel b.2 P A hnotin
      have hstep := stepPaths_invariant t b.2 P A hnd hinv
      obtain ⟨h3, h4⟩ := ih (stepPaths t b.2 (P, A)).1 (stepPaths t b.2 (P, A)).2
        hwf' (hiff.mpr hP) hstep.1 hstep.2
      have hfirst : firstAgeIn (b :: bs) rel = firstAgeIn bs rel := by
        simp only [firstAgeIn, hc', Bool.false_eq_true, if_false]
      rw [hfirst]
      exact ⟨h3, h4⟩

theorem dedupFirst_nodup : ∀ l : List String, (dedupFirst l).Nodup := by
  intro l
  induction l with
  | nil => exact List.nodup_nil
  | cons x rest ih =>
    by_cases hm : x ∈ dedupFirst rest
    · simpa [dedupFirst, hm] using ih
    · simp only [dedupFirst, hm, if_false]
      exact List.nodup_cons.mpr ⟨hm, ih⟩

theorem mem_dedupFirst : ∀ (l : List String) (x : String), x ∈ dedupFirst l ↔ x ∈ l := by
  intro l
  induction l with
  | nil => intro x; simp [dedupFirst]
  | cons y rest ih =>
    intro x
    by_cases hm : y ∈ dedupFirst rest
    · simp only [dedupFirst, hm, if_pos, List.mem_cons]
      rw [ih]
      constructor
      · exact Or.inr
      · rintro (rfl | h)
        · exact (ih x).mp hm
        · exact h
    · simp only [dedupFirst, hm, if_false, List.mem_cons]
      rw [ih]

/-- C3.  The bulk phase of age resolution, on well-formed revision-blocked
output: (1) for every requested path, the recorded age is exactly the
timestamp of the *first* block that touches the path (absent when no block
does, in which case — and only in which case — the path stays pending), so a
first-seen timestamp is never overwritten by later blocks; (2) once the
pending set is empty the walk records nothing further (early stop); (3) if
the bulk query fails entirely, every requested path remains pending with no
age recorded, ready for the fallback phase. -/
theorem bulk_phase_behaviour :
    (∀ (blocks : List (String × List String)) (requested : List String) (rel : String),
        WfBlocks blocks → rel ∈ requested →
        List.lookup rel
            (runBulk (some (renderBlocks blocks)) (dedupFirst requested)).fileAges =
            firstAgeIn blocks rel ∧
          (rel ∈ (runBulk (some (renderBlocks blocks)) (dedupFirst requested)).pending ↔
            firstAgeIn blocks rel = none)) ∧
      (∀ (lines : List String) (st : BulkState), st.pending = [] →
        (bulkLoop lines st).fileAges = st.fileAges ∧ (bulkLoop lines st).pending = []) ∧
      (∀ requested : List String, runBulk none requested = ⟨none, requested, []⟩) := by
  refine ⟨?_, bulkLoop_pending_nil, fun _ => rfl⟩
  intro blocks requested rel hwf hreq
  have hmem : rel ∈ dedupFirst requested := (mem_dedupFirst requested rel).mpr hreq
  have hnd := dedupFirst_nodup requested
  have hinv : ∀ p ∈ dedupFirst requested, List.lookup p ([] : AgeMap) = none :=
    fun _ _ => rfl
  obtain ⟨hA, hP⟩ := bulkLoop_blocks blocks (dedupFirst requested) [] hwf hnd hinv
  obtain ⟨h1, h2⟩ := specScan_lookup rel blocks (dedupFirst requested) [] hwf hmem hnd hinv
  unfold runBulk
  rw [hA, hP]
  exact ⟨h1, h2⟩

/-- C3 witness: one well-formed block `(100, [a.txt])` with requested paths
`a.txt` and `b.txt` — `a.txt` is recorded with 100 and leaves the pending set,
`b.txt` stays pending. -/
theorem bulk_phase_behaviour_witness :
    WfBlocks [("100", ["a.txt"])] ∧
      (List.lookup ("a.txt")
          (runBulk (some (renderBlocks [("100", ["a.txt"])]))
            (dedupFirst ["a.txt", "b.txt"])).fileAges =
          firstAgeIn [("100", ["a.txt"])] "a.txt" ∧
        ("a.txt" ∈ (runBulk (some (renderBlocks [("100", ["a.txt"])]))
            (dedupFirst ["a.txt", "b.txt"])).pending ↔
          firstAgeIn [("100", ["a.txt"])] "a.txt" = none)) :=
  ⟨by decide,
    bulk_phase_behaviour.1 [("100", ["a.txt"])] ["a.txt", "b.txt"] "a.txt" (by decide)
      (by decide)⟩

theorem bulkLoop_cons_nonum (line : String) (rest : List String) (st : BulkState)
    (hne : stripTrailingCR line ≠ "") (hts : st.currentTimestamp = none)
    (hnum : jsNumberFinite (stripTrailingCR line) = none) :
    bulkLoop (line :: rest) st = bulkLoop rest st := by
  conv_lhs => rw [bulkLoop]
  simp only [if_neg hne, hts, hnum]

/-- C8.  Counterexample: in the block `oops / 777 / a.txt` the timestamp token
`oops` is malformed, so the walk keeps looking for a timestamp *within the
block*: the requested path line `777` parses as a finite number and is
consumed as the current timestamp, after which `a.txt` — untouched by any
well-formed block — is recorded with the bogus timestamp 777 (and requested
path `777` is never matched).  So a malformed timestamp is not "ignored for
that entry only": it can assign a wrong timestamp to a requested path. -/
theorem malformed_timestamp_misattribution :
    (runBulk (some ["oops", "777", "a.txt", "", "200", "x.txt"])
        ["a.txt", "777", "x.txt"]).fileAges =
      [("a.txt", 777), ("x.txt", 200)] := by
  decide

/-- C8 (amended).  When a revision block's timestamp token is malformed, the
walk treats the block's subsequent lines as timestamp candidates; provided no
line of the block parses as a finite number, the entire block is skipped with
no path recorded and no timestamp adopted, and parsing continues: the walk's
result on the remaining (e.g. well-formed) blocks is exactly as if the
malformed block were absent.  (A block line that *does* parse as a finite
number is instead adopted as the current timestamp — see the
counterexample.) -/
theorem malformed_block_no_effect (badLines rest : List String) (st : BulkState)
    (hts : st.currentTimestamp = none)
    (hbad : ∀ l ∈ badLines, stripTrailingCR l = l ∧ l ≠ "" ∧ jsNumberFinite l = none) :
    bulkLoop (badLines ++ "" :: rest) st = bulkLoop rest st := by
  induction badLines with
  | nil =>
    have hst : ({ st with currentTimestamp := none } : BulkState) = st := by
      cases st
      simp_all
    rw [List.nil_append, bulkLoop_cons_blank ("") rest st (by decide), hst]
  | cons l ls ih =>
    obtain ⟨h1, h2, h3⟩ := hbad l (List.mem_cons_self l ls)
    have hne : stripTrailingCR l ≠ "" := by rw [h1]; exact h2
    have hnum : jsNumberFinite (stripTrailingCR l) = none := by rw [h1]; exact h3
    rw [List.cons_append, bulkLoop_cons_nonum l (ls ++ "" :: rest) st hne hts hnum]
    exact ih (fun q hq => hbad q (List.mem_cons_of_mem l hq))

/-- C8 witness: a malformed block `oops / nope.txt` is skipped entirely;
processing continues with the rest of the stream. -/
theorem malformed_block_no_effect_witness :
    (⟨none, ["x.txt"], []⟩ : BulkState).currentTimestamp = none ∧
      (∀ l ∈ ["oops", "nope.txt"],
        stripTrailingCR l = l ∧ l ≠ "" ∧ jsNumberFinite l = none) ∧
      bulkLoop (["oops", "nope.txt"] ++ "" :: ["200", "x.txt"]) ⟨none, ["x.txt"], []⟩ =
        bulkLoop ["200", "x.txt"] ⟨none, ["x.txt"], []⟩ :=
  ⟨rfl, by decide,
    malformed_block_no_effect ["oops", "nope.txt"] ["200", "x.txt"]
      ⟨none, ["x.txt"], []⟩ rfl (by decide)⟩

/-! ### Children-map lemmas -/

theorem perm_rotate {α : Type} (X R Y : List α) : X ++ (R ++ Y) ~ Y ++ (R ++ X) := by
  calc X ++ (R ++ Y) ~ X ++ (Y ++ R) := List.Perm.append_left X List.perm_append_comm
    _ = (X ++ Y) ++ R := by rw [List.append_assoc]
    _ ~ (Y ++ X) ++ R := List.Perm.append_right R List.perm_append_comm
    _ = Y ++ (X ++ R) := by rw [List.append_assoc]
    _ ~ Y ++ (R ++ X) := List.Perm.append_left Y List.perm_append_comm

theorem chLookup_none_iff : ∀ (cs : Children) (k : String), chLookup cs k = none ↔ k ∉ keysCh cs
  | .nil, k => by simp [chLookup, keysCh]
  | .cons s n rest, k => by
    by_cases h : s = k
    · subst h; simp [chLookup, keysCh]
    · simp only [chLookup, if_neg h, keysCh, List.mem_cons]
      rw [chLookup_none_iff rest k]
      simp [show k ≠ s from fun hk => h hk.symm]

theorem chLookup_mem_keys : ∀ (cs : Children) (k : String) (n : TreeNode),
    chLookup cs k = some n → k ∈ keysCh cs := by
  intro cs k n h
  by_contra hmem
  rw [← chLookup_none_iff] at hmem
  rw [h] at hmem
  exact Option.noConfusion hmem

theorem chSet_none_paths : ∀ (cs : Children) (k : String) (v : TreeNode),
    chLookup cs k = none →
    pathsCh (chSet cs k v) = pathsCh cs ++ (pathsNode v).map (fun q => k :: q)
  | .nil, k, v, _ => by simp [chSet, pathsCh]
  | .cons s n rest, k, v, h => by
    by_cases hs : s = k
    · subst hs; simp [chLookup] at h
    · simp only [chLookup, if_neg hs] at h
      simp only [chSet, if_neg hs, pathsCh, chSet_none_paths rest k v h, List.append_assoc]

theorem chSet_none_traverse : ∀ (cs : Children) (k : String) (v : TreeNode),
    chLookup cs k = none →
    traverseChildren (chSet cs k v) = traverseChildren cs ++ traverseNode v
  | .nil, k, v, _ => by simp [chSet, traverseChildren, traverseNode]
  | .cons s n rest, k, v, h => by
    by_cases hs : s = k
    · subst hs; simp [chLookup] at h
    · simp only [chLookup, if_neg hs] at h
      simp only [chSet, if_neg hs, traverseChildren, chSet_none_traverse rest k v h,
        List.append_assoc]

theorem chSet_none_keys : ∀ (cs : Children) (k : String) (v : TreeNode),
    chLookup cs k = none → keysCh (chSet cs k v) = keysCh cs ++ [k]
  | .nil, k, v, _ => by simp [chSet, keysCh]
  | .cons s n rest, k, v, h => by
    by_cases hs : s = k
    · subst hs; simp [chLookup] at h
    · simp only [chLookup, if_neg hs] at h
      simp only [chSet, if_neg hs, keysCh, chSet_none_keys rest k v h, List.cons_append]

theorem chSet_some_paths : ∀ (cs : Children) (k : String) (n v : TreeNode),
    chLookup cs k = some n →
    pathsCh (chSet cs k v) ++ (pathsNode n).map (fun q => k :: q) ~
      pathsCh cs ++ (pathsNode v).map (fun q => k :: q)
  | .nil, k, n, v, h => by simp [chLookup] at h
  | .cons s m rest, k, n, v, h => by
    by_cases hs : s = k
    · subst hs
      simp [chLookup] at h
      subst h
      simp only [chSet, if_pos rfl, pathsCh, List.append_assoc]
      exact perm_rotate _ _ _
    · simp only [chLookup, if_neg hs] at h
      simp only [chSet, if_neg hs, pathsCh, List.append_assoc]
      exact List.Perm.append_left _ (chSet_some_paths rest k n v h)

theorem chSet_some_traverse : ∀ (cs : Children) (k : String) (n v : TreeNode),
    chLookup cs k = some n →
    traverseChildren (chSet cs k v) ++ traverseNode n ~
      traverseChildren cs ++ traverseNode v
  | .nil, k, n, v, h => by simp [chLookup] at h
  | .cons s m rest, k, n, v, h => by
    by_cases hs : s = k
    · subst hs
      simp [chLookup] at h
      subst h
      simp only [chSet, if_pos rfl, traverseChildren, List.append_assoc]
      exact perm_rotate _ _ _
    · simp only [chLookup, if_neg hs] at h
      simp only [chSet, if_neg hs, traverseChildren, List.append_assoc]
      exact List.Perm.append_left _ (chSet_some_traverse rest k n v h)

theorem chSet_some_keys : ∀ (cs : Children) (k : String) (n v : TreeNode),
    chLookup cs k = some n → keysCh (chSet cs k v) = keysCh cs
  | .nil, k, n, v, h => by simp [chLookup] at h
  | .cons s m rest, k, n, v, h => by
    by_cases hs : s = k
    · subst hs; simp [chSet, keysCh]
    · simp only [chLookup, if_neg hs] at h
      simp only [chSet, if_neg hs, keysCh, chSet_some_keys rest k n v h]

theorem chSet_lookup_self : ∀ (cs : Children) (k : String) (v : TreeNode),
    chLookup (chSet cs k v) k = some v
  | .nil, k, v => by simp [chSet, chLookup]
  | .cons s n rest, k, v => by
    by_cases hs : s = k
    · subst hs; simp [chSet, chLookup]
    · simp only [chSet, if_neg hs, chLookup, if_neg hs]
      exact chSet_lookup_self rest k v

theorem chLookup_paths_mem : ∀ (cs : Children) (k : String) (n : TreeNode),
    chLookup cs k = some n → ∀ q ∈ pathsNode n, (k :: q) ∈ pathsCh cs
  | .nil, k, n, h => by simp [chLookup] at h
  | .cons s m rest, k, n, h => by
    by_cases hs : s = k
    · subst hs
      simp [chLookup] at h
      subst h
      intro q hq
      simp only [pathsCh, List.mem_append, List.mem_map]
      exact Or.inl ⟨q, hq, rfl⟩
    · simp only [chLookup, if_neg hs] at h
      intro q hq
      simp only [pathsCh, List.mem_append]
      exact Or.inr (chLookup_paths_mem rest k n h q hq)

theorem pathsCh_ne_nil_mem : ∀ (cs : Children), ∀ q ∈ pathsCh cs, q ≠ []
  | .nil => by simp [pathsCh]
  | .cons s n rest => by
    intro q hq
    simp only [pathsCh, List.mem_append, List.mem_map] at hq
    rcases hq with ⟨q', _, rfl⟩ | hq
    · exact List.cons_ne_nil s q'
    · exact pathsCh_ne_nil_mem rest q hq

theorem paths_to_lookup : ∀ (cs : Children) (k : String) (q : List String),
    wfCh cs → (k :: q) ∈ pathsCh cs →
    ∃ n, chLookup cs k = some n ∧ q ∈ pathsNode n
  | .nil, k, q, _, h => by simp [pathsCh] at h
  | .cons s m rest, k, q, hwf, h => by
    have hwf' : wfNode m ∧ wfCh rest ∧ s ∉ keysCh rest := by
      simpa [wfCh] using hwf
    simp only [pathsCh, List.mem_append, List.mem_map] at h
    rcases h with ⟨q', hq', heq⟩ | h
    · obtain ⟨rfl, rfl⟩ : s = k ∧ q' = q := by
        constructor
        · exact (List.cons.injEq _ _ _ _ ▸ heq).1
        · exact (List.cons.injEq _ _ _ _ ▸ heq).2
      exact ⟨m, by simp [chLookup], hq'⟩
    · obtain ⟨n, hn, hqn⟩ := paths_to_lookup rest k q hwf'.2.1 h
      have hks : s ≠ k := by
        intro hs
        exact hwf'.2.2 (hs ▸ chLookup_mem_keys rest k n hn)
      exact ⟨n, by simpa [chLookup, if_neg hks] using hn, hqn⟩

theorem wf_lookup : ∀ (cs : Children) (k : String) (n : TreeNode),
    wfCh cs → chLookup cs k = some n → wfNode n
  | .nil, k, n, _, h => by simp [chLookup] at h
  | .cons s m rest, k, n, hwf, h => by
    have hwf' : wfNode m ∧ wfCh rest ∧ s ∉ keysCh rest := by
      simpa [wfCh] using hwf
    by_cases hs : s = k
    · subst hs
      simp [chLookup] at h
      exact h ▸ hwf'.1
    · simp only [chLookup, if_neg hs] at h
      exact wf_lookup rest k n hwf'.2.1 h

theorem wf_chSet_none : ∀ (cs : Children) (k : String) (v : TreeNode),
    chLookup cs k = none → wfCh cs → wfNode v → wfCh (chSet cs k v)
  | .nil, k, v, _, _, hv => by simp [chSet, wfCh, keysCh, hv]
  | .cons s n rest, k, v, h, hwf, hv => by
    have hwf' : wfNode n ∧ wfCh rest ∧ s ∉ keysCh rest := by
      simpa [wfCh] using hwf
    by_cases hs : s = k
    · subst hs; simp [chLookup] at h
    · simp only [chLookup, if_neg hs] at h
      simp only [chSet, if_neg hs, wfCh]
      refine ⟨hwf'.1, wf_chSet_none rest k v h hwf'.2.1 hv, ?_⟩
      rw [chSet_none_keys rest k v h]
      simp only [List.mem_append, List.mem_singleton]
      rintro (hmem | rfl)
      · exact hwf'.2.2 hmem
      · exact hs rfl

theorem wf_chSet_some : ∀ (cs : Children) (k : String) (n v : TreeNode),
    chLookup cs k = some n → wfCh cs → wfNode v → wfCh (chSet cs k v)
  | .nil, k, n, v, h, _, _ => by simp [chLookup] at h
  | .cons s m rest, k, n, v, h, hwf, hv => by
    have hwf' : wfNode m ∧ wfCh rest ∧ s ∉ keysCh rest := by
      simpa [wfCh] using hwf
    by_cases hs : s = k
    · subst hs
      simp only [chSet, if_pos rfl, wfCh]
      exact ⟨hv, hwf'.2.1, hwf'.2.2⟩
    · simp only [chLookup, if_neg hs] at h
      simp only [chSet, if_neg hs, wfCh]
      refine ⟨hwf'.1, wf_chSet_some rest k n v h hwf'.2.1 hv, ?_⟩
      rw [chSet_some_keys rest k n v h]
      exact hwf'.2.2

theorem splitSegChars_ne_nil : ∀ l : List Char, splitSegChars l ≠ []
  | [] => by simp [splitSegChars]
  | c :: rest => by
    simp only [splitSegChars]
    by_cases h : c = '/'
    · simp [h]
    · simp only [if_neg h]
      cases hs : splitSegChars rest with
      | nil => simp
      | cons s ss => simp

theorem splitSegs_ne_nil (s : String) : splitSegs s ≠ [] := by
  unfold splitSegs
  intro h
  exact splitSegChars_ne_nil s.data (List.map_eq_nil_iff.mp h)

/-- The key insertion lemma: under freshness (no existing file path is
prefix-comparable with the inserted path), `insertSegs` succeeds and extends
the tree by exactly the one new file, preserving well-formedness. -/
theorem insertSegs_spec :
    ∀ (segs : List String) (cs : Children) (info : FileInfo) (age : Option Int),
      segs ≠ [] → wfCh cs →
      (∀ q ∈ pathsCh cs, ¬ q <+: segs ∧ ¬ segs <+: q) →
      ∃ cs', insertSegs cs segs info age = some cs' ∧
        pathsCh cs' ~ segs :: pathsCh cs ∧
        traverseChildren cs' ~ info :: traverseChildren cs ∧
        wfCh cs' := by
  intro segs
  induction segs with
  | nil => intro cs info age h; exact absurd rfl h
  | cons k rest ih =>
    intro cs info age _ hwf hfree
    cases rest with
    | nil =>
      have hlk : chLookup cs k = none := by
        cases hlk : chLookup cs k with
        | none => rfl
        | some n =>
          exfalso
          cases n with
          | file i a =>
            have hmem : [k] ∈ pathsCh cs :=
              chLookup_paths_mem cs k _ hlk [] (by simp [pathsNode])
            exact (hfree [k] hmem).1 (List.prefix_refl [k])
          | dir sub =>
            have hwfn : wfNode (.dir sub) := wf_lookup cs k _ hwf hlk
            have hsub : pathsCh sub ≠ [] := by
              simpa [wfNode] using hwfn.1
            obtain ⟨q, hq⟩ := List.exists_mem_of_ne_nil _ hsub
            have hmem : (k :: q) ∈ pathsCh cs :=
              chLookup_paths_mem cs k _ hlk q (by simpa [pathsNode] using hq)
            exact (hfree (k :: q) hmem).2 (by simp [List.cons_prefix_cons])
      refine ⟨chSet cs k (.file info age), rfl, ?_, ?_, ?_⟩
      · rw [chSet_none_paths cs k _ hlk]
        simp only [pathsNode, List.map_cons, List.map_nil]
        exact List.perm_append_comm.trans (List.Perm.refl _)
      · rw [chSet_none_traverse cs k _ hlk]
        simp only [traverseNode]
        exact List.perm_append_comm.trans (List.Perm.refl _)
      · exact wf_chSet_none cs k _ hlk hwf trivial
    | cons k2 rest2 =>
      cases hlk : chLookup cs k with
      | none =>
        obtain ⟨sub', hins, hp, ht, hw⟩ := ih .nil info age (by simp) trivial (by simp [pathsCh])
        refine ⟨chSet cs k (.dir sub'), ?_, ?_, ?_, ?_⟩
        · simp only [insertSegs, hlk, hins]
          rfl
        · rw [chSet_none_paths cs k _ hlk]
          have hp' : (pathsNode (.dir sub')).map (fun q => k :: q) ~ [k :: k2 :: rest2] := by
            simpa [pathsNode, pathsCh] using List.Perm.map (fun q => k :: q) hp
          calc pathsCh cs ++ (pathsNode (.dir sub')).map (fun q => k :: q)
              ~ pathsCh cs ++ [k :: k2 :: rest2] := List.Perm.append_left _ hp'
            _ ~ (k :: k2 :: rest2) :: pathsCh cs := List.perm_append_comm
        · rw [chSet_none_traverse cs k _ hlk]
          have ht' : traverseNode (.dir sub') ~ [info] := by
            simpa [traverseNode, traverseChildren] using ht
          calc traverseChildren cs ++ traverseNode (.dir sub')
              ~ traverseChildren cs ++ [info] := List.Perm.append_left _ ht'
            _ ~ info :: traverseChildren cs := List.perm_append_comm
        · refine wf_chSet_none cs k _ hlk hwf ?_
          simp only [wfNode]
          refine ⟨?_, hw⟩
          intro hnil
          rw [hnil] at hp
          exact absurd hp.symm.eq_nil (by simp)
      | some n =>
        cases n with
        | file i a =>
          exfalso
          have hmem : [k] ∈ pathsCh cs :=
            chLookup_paths_mem cs k _ hlk [] (by simp [pathsNode])
          exact (hfree [k] hmem).1 (by simp [List.cons_prefix_cons])
        | dir sub =>
          have hwfn : wfNode (.dir sub) := wf_lookup cs k _ hwf hlk
          have hwfsub : wfCh sub := by
            simpa [wfNode] using hwfn.2
          have hfree' : ∀ q ∈ pathsCh sub, ¬ q <+: (k2 :: rest2) ∧ ¬ (k2 :: rest2) <+: q := by
            intro q hq
            have hmem : (k :: q) ∈ pathsCh cs :=
              chLookup_paths_mem cs k _ hlk q (by simpa [pathsNode] using hq)
            have h1 := (hfree (k :: q) hmem).1
            have h2 := (hfree (k :: q) hmem).2
            constructor
            · intro hpre; exact h1 (by simp [List.cons_prefix_cons, hpre])
            · intro hpre; exact h2 (by simp [List.cons_prefix_cons, hpre])
          obtain ⟨sub', hins, hp, ht, hw⟩ := ih sub info age (by simp) hwfsub hfree'
          refine ⟨chSet cs k (.dir sub'), ?_, ?_, ?_, ?_⟩
          · simp only [insertSegs, hlk, hins]
            rfl
          · have hswap := chSet_some_paths cs k (.dir sub) (.dir sub') hlk
            have hp' : (pathsNode (.dir sub')).map (fun q => k :: q) ~
                (k :: k2 :: rest2) :: (pathsNode (.dir sub)).map (fun q => k :: q) := by
              simpa [pathsNode] using List.Perm.map (fun q => k :: q) hp
            have hchain : pathsCh (chSet cs k (.dir sub')) ++
                (pathsNode (.dir sub)).map (fun q => k :: q) ~
                ((k :: k2 :: rest2) :: pathsCh cs) ++
                  (pathsNode (.dir sub)).map (fun q => k :: q) := by
              calc pathsCh (chSet cs k (.dir sub')) ++
                    (pathsNode (.dir sub)).map (fun q => k :: q)
                  ~ pathsCh cs ++ (pathsNode (.dir sub')).map (fun q => k :: q) := hswap
                _ ~ pathsCh cs ++
                    ((k :: k2 :: rest2) :: (pathsNode (.dir sub)).map (fun q => k :: q)) :=
                  List.Perm.append_left _ hp'
                _ ~ ((k :: k2 :: rest2) :: pathsCh cs) ++
                    (pathsNode (.dir sub)).map (fun q => k :: q) := by
                  simpa using List.perm_middle.symm
            exact (List.perm_append_right_iff _).mp hchain
          · have hswap := chSet_some_traverse cs k (.dir sub) (.dir sub') hlk
            have ht' : traverseNode (.dir sub') ~ info :: traverseNode (.dir sub) := by
              simpa [traverseNode] using ht
            have hchain : traverseChildren (chSet cs k (.dir sub')) ++
                traverseNode (.dir sub) ~
                (info :: traverseChildren cs) ++ traverseNode (.dir sub) := by
              calc traverseChildren (chSet cs k (.dir sub')) ++ traverseNode (.dir sub)
                  ~ traverseChildren cs ++ traverseNode (.dir sub') := hswap
                _ ~ traverseChildren cs ++ (info :: traverseNode (.dir sub)) :=
                  List.Perm.append_left _ ht'
                _ ~ (info :: traverseChildren cs) ++ traverseNode (.dir sub) := by
                  simpa using List.perm_middle.symm
            exact (List.perm_append_right_iff _).mp hchain
          · refine wf_chSet_some cs k (.dir sub) (.dir sub') hlk hwf ?_
            simp only [wfNode]
            refine ⟨?_, hw⟩
            intro hnil
            rw [hnil] at hp
            exact absurd hp.symm.eq_nil (by simp)

theorem traverseChildren_ofList : ∀ l : List (String × TreeNode),
    traverseChildren (chOfList l) = l.flatMap (fun e => traverseNode e.2)
  | [] => by simp [chOfList, traverseChildren]
  | (s, n) :: rest => by
    simp [chOfList, traverseChildren, traverseChildren_ofList rest]

theorem traverseChildren_toList : ∀ cs : Children,
    traverseChildren cs = (chToList cs).flatMap (fun e => traverseNode e.2)
  | .nil => by simp [chToList, traverseChildren]
  | .cons s n rest => by
    simp [chToList, traverseChildren, traverseChildren_toList rest]

mutual
/-- Sorting the tree levels permutes, but never changes, the set of emitted
file infos. -/
theorem traverseNode_sortTree : ∀ (pp : String) (t : TreeNode),
    traverseNode (sortTree pp t) ~ traverseNode t
  | _, .file info age => List.Perm.refl _
  | pp, .dir cs => by
    simp only [sortTree, traverseNode]
    rw [traverseChildren_ofList]
    calc (List.insertionSort (entryLe pp) (chToList (sortChildrenRec pp cs))).flatMap
          (fun e => traverseNode e.2)
        ~ (chToList (sortChildrenRec pp cs)).flatMap (fun e => traverseNode e.2) :=
          List.Perm.flatMap_right _ (List.perm_insertionSort _ _)
      _ = traverseChildren (sortChildrenRec pp cs) := (traverseChildren_toList _).symm
      _ ~ traverseChildren cs := traverseChildren_sortChildrenRec pp cs
theorem traverseChildren_sortChildrenRec : ∀ (pp : String) (cs : Children),
    traverseChildren (sortChildrenRec pp cs) ~ traverseChildren cs
  | _, .nil => List.Perm.refl _
  | pp, .cons s n rest => by
    simp only [sortChildrenRec, traverseChildren]
    exact List.Perm.append (traverseNode_sortTree (joinPath pp s) n)
      (traverseChildren_sortChildrenRec pp rest)
end

theorem collectFilesByAge_perm (node : TreeNode) (pp : String) :
    collectFilesByAge node pp ~ traverseNode node :=
  traverseNode_sortTree pp node

/-- The fold-level insertion lemma: with pairwise prefix-incomparable fresh
paths, the whole build succeeds and the tree's files are exactly the inserted
infos (plus whatever was already there). -/
theorem insertAll_spec :
    ∀ (infos : List FileInfo) (cs : Children) (ages : AgeMap),
      wfCh cs →
      List.Pairwise (fun a b => ¬ splitSegs a.rel <+: splitSegs b.rel ∧
        ¬ splitSegs b.rel <+: splitSegs a.rel) infos →
      (∀ q ∈ pathsCh cs, ∀ i ∈ infos, ¬ q <+: splitSegs i.rel ∧ ¬ splitSegs i.rel <+: q) →
      ∃ cs', (infos.foldlM
          (fun cs info => insertSegs cs (splitSegs info.rel) info
            (List.lookup info.rel ages)) cs) = some cs' ∧
        traverseChildren cs' ~ infos ++ traverseChildren cs ∧
        pathsCh cs' ~ (infos.map (fun i => splitSegs i.rel)) ++ pathsCh cs ∧
        wfCh cs' := by
  intro infos
  induction infos with
  | nil =>
    intro cs ages hwf _ _
    exact ⟨cs, rfl, by simp, by simp, hwf⟩
  | cons i rest ih =>
    intro cs ages hwf hpair hcross
    obtain ⟨cs₁, hins, hp₁, ht₁, hwf₁⟩ :=
      insertSegs_spec (splitSegs i.rel) cs i (List.lookup i.rel ages)
        (splitSegs_ne_nil i.rel) hwf
        (fun q hq => hcross q hq i (List.mem_cons_self i rest))
    have hpair' := List.pairwise_cons.mp hpair
    have hcross₁ : ∀ q ∈ pathsCh cs₁, ∀ j ∈ rest,
        ¬ q <+: splitSegs j.rel ∧ ¬ splitSegs j.rel <+: q := by
      intro q hq j hj
      have hq' : q ∈ (splitSegs i.rel) :: pathsCh cs := hp₁.mem_iff.mp hq
      rcases List.mem_cons.mp hq' with rfl | hq''
      · exact hpair'.1 j hj
      · exact hcross q hq'' j (List.mem_cons_of_mem i hj)
    obtain ⟨cs', hfold, ht', hp', hwf'⟩ := ih cs₁ ages hwf₁ hpair'.2 hcross₁
    refine ⟨cs', ?_, ?_, ?_, hwf'⟩
    · simpa [List.foldlM, hins] using hfold
    · calc traverseChildren cs' ~ rest ++ traverseChildren cs₁ := ht'
        _ ~ rest ++ (i :: traverseChildren cs) := List.Perm.append_left _ ht₁
        _ ~ i :: (rest ++ traverseChildren cs) := List.perm_middle
        _ = (i :: rest) ++ traverseChildren cs := rfl
    · calc pathsCh cs' ~ (rest.map (fun j => splitSegs j.rel)) ++ pathsCh cs₁ := hp'
        _ ~ (rest.map (fun j => splitSegs j.rel)) ++
            (splitSegs i.rel :: pathsCh cs) := List.Perm.append_left _ hp₁
        _ ~ splitSegs i.rel :: ((rest.map (fun j => splitSegs j.rel)) ++ pathsCh cs) :=
          List.perm_middle
        _ = ((i :: rest).map (fun j => splitSegs j.rel)) ++ pathsCh cs := rfl

theorem joinSeg_splitSegChars : ∀ l : List Char, joinSegChars (splitSegChars l) = l
  | [] => rfl
  | c :: rest => by
    have hj := joinSeg_splitSegChars rest
    by_cases hc : c = '/'
    · subst hc
      simp only [splitSegChars, if_pos rfl]
      cases hs : splitSegChars rest with
      | nil => exact absurd hs (splitSegChars_ne_nil rest)
      | cons y ys =>
        rw [hs] at hj
        simp only [joinSegChars, List.nil_append]
        rw [hj]
    · simp only [splitSegChars, if_neg hc]
      cases hs : splitSegChars rest with
      | nil => exact absurd hs (splitSegChars_ne_nil rest)
      | cons y ys =>
        rw [hs] at hj
        cases ys with
        | nil =>
          simp only [joinSegChars] at hj ⊢
          rw [hj]
        | cons z zs =>
          simp only [joinSegChars] at hj ⊢
          rw [List.cons_append, hj]

theorem splitSegs_inj {a b : String} (h : splitSegs a = splitSegs b) : a = b := by
  have hid : (String.data ∘ fun l : List Char => (⟨l⟩ : String)) = id :=
    funext (fun l => rfl)
  have h2 : splitSegChars a.data = splitSegChars b.data := by
    have hmap := congrArg (List.map String.data) h
    simpa [splitSegs, List.map_map, hid] using hmap
  have h3 : a.data = b.data := by
    rw [← joinSeg_splitSegChars a.data, ← joinSeg_splitSegChars b.data, h2]
  cases a
  cases b
  exact congrArg String.mk (by simpa using h3)

theorem orderInfos_perm_of_prefixFree (infos : List FileInfo) (ages : AgeMap)
    (hfree : List.Pairwise (fun a b => ¬ splitSegs a.rel <+: splitSegs b.rel ∧
      ¬ splitSegs b.rel <+: splitSegs a.rel) infos) :
    ∃ l, orderInfosByOldest infos ages = some l ∧ l ~ infos := by
  obtain ⟨cs', hfold, ht, _, _⟩ :=
    insertAll_spec infos .nil ages trivial hfree (by simp [pathsCh])
  refine ⟨collectFilesByAge (.dir cs') "", ?_, ?_⟩
  · unfold orderInfosByOldest
    rw [hfold]
    rfl
  · calc collectFilesByAge (.dir cs') "" ~ traverseNode (.dir cs') :=
        collectFilesByAge_perm _ _
      _ = traverseChildren cs' := rfl
      _ ~ infos := by simpa [traverseChildren] using ht

/-- C2.  For every list of included candidates whose repo-relative paths are
pairwise distinct with none a proper path-prefix of another, and for every
age record and sort mode, the final ordered list (age-mode tree traversal or
filename-mode sort, followed by the readme relocation) exists (no error) and
is a permutation of the input: every included candidate exactly once. -/
theorem final_order_is_permutation (sortMode : String) (infos : List FileInfo)
    (ages : AgeMap) (hdist : (infos.map (fun i => i.rel)).Nodup)
    (hnopre : List.Pairwise (fun a b => ¬ ProperPathPrefix a.rel b.rel ∧
      ¬ ProperPathPrefix b.rel a.rel) infos) :
    ∃ l, orderPipeline sortMode infos ages = some l ∧ l ~ infos := by
  have hdist' : List.Pairwise (fun a b : FileInfo => a.rel ≠ b.rel) infos :=
    List.pairwise_map.mp hdist
  have hfree : List.Pairwise (fun a b => ¬ splitSegs a.rel <+: splitSegs b.rel ∧
      ¬ splitSegs b.rel <+: splitSegs a.rel) infos := by
    refine (hnopre.and hdist').imp ?_
    rintro a b ⟨⟨hn1, hn2⟩, hne⟩
    constructor
    · intro hpre
      by_cases heq : splitSegs a.rel = splitSegs b.rel
      · exact hne (splitSegs_inj heq)
      · exact hn1 ⟨hpre, heq⟩
    · intro hpre
      by_cases heq : splitSegs b.rel = splitSegs a.rel
      · exact hne (splitSegs_inj heq).symm
      · exact hn2 ⟨hpre, heq⟩
  by_cases hlen : infos.length > 0
  · by_cases hmode : sortMode = "age"
    · obtain ⟨l, hl, hperm⟩ := orderInfos_perm_of_prefixFree infos ages hfree
      refine ⟨relocateReadme l, ?_, (relocateReadme_perm l).trans hperm⟩
      simp [orderPipeline, hlen, hmode, hl]
    · refine ⟨relocateReadme
        (List.insertionSort (fun a b => localeCompareBase a.rel b.rel ≤ 0) infos), ?_, ?_⟩
      · simp [orderPipeline, hlen, hmode]
      · exact (relocateReadme_perm _).trans (List.perm_insertionSort _ infos)
  · have hnil : infos = [] := List.length_eq_zero.mp (by omega)
    subst hnil
    exact ⟨[], by simp [orderPipeline, relocateReadme, List.findIdx?], List.Perm.refl _⟩

/-- C2 witness: a concrete prefix-free set ordered in age mode. -/
theorem final_order_is_permutation_witness :
    (([⟨"b/a.txt"⟩, ⟨"b/c.txt"⟩, ⟨"d.txt"⟩] : List FileInfo).map (fun i => i.rel)).Nodup ∧
      List.Pairwise (fun a b => ¬ ProperPathPrefix a.rel b.rel ∧
        ¬ ProperPathPrefix b.rel a.rel) ([⟨"b/a.txt"⟩, ⟨"b/c.txt"⟩, ⟨"d.txt"⟩] : List FileInfo) ∧
      ∃ l, orderPipeline ("age") [⟨"b/a.txt"⟩, ⟨"b/c.txt"⟩, ⟨"d.txt"⟩] [("d.txt", 3)] = some l ∧
        l ~ [⟨"b/a.txt"⟩, ⟨"b/c.txt"⟩, ⟨"d.txt"⟩] :=
  ⟨by decide, by decide,
    final_order_is_permutation ("age") [⟨"b/a.txt"⟩, ⟨"b/c.txt"⟩, ⟨"d.txt"⟩] [("d.txt", 3)]
      (by decide) (by decide)⟩

theorem chSet_some_paths_mem : ∀ (cs : Children) (k : String) (n v : TreeNode)
    (q : List String), wfCh cs → chLookup cs k = some n → q ∈ pathsCh cs →
    q ∈ pathsCh (chSet cs k v) ∨ ∃ q₂, q = k :: q₂ ∧ q₂ ∈ pathsNode n
  | .nil, k, n, v, q, _, hlk, _ => by simp [chLookup] at hlk
  | .cons s m rest, k, n, v, q, hwf, hlk, hq => by
    have hwf' : wfNode m ∧ wfCh rest ∧ s ∉ keysCh rest := by
      simpa [wfCh] using hwf
    by_cases hs : s = k
    · subst hs
      simp [chLookup] at hlk
      subst hlk
      simp only [pathsCh, List.mem_append, List.mem_map] at hq
      rcases hq with ⟨q₂, hq₂, rfl⟩ | hq
      · exact Or.inr ⟨q₂, rfl, hq₂⟩
      · left
        simp only [chSet, if_pos rfl, pathsCh, List.mem_append]
        exact Or.inr hq
    · simp only [chLookup, if_neg hs] at hlk
      simp only [pathsCh, List.mem_append, List.mem_map] at hq
      rcases hq with ⟨q₂, hq₂, rfl⟩ | hq
      · left
        simp only [chSet, if_neg hs, pathsCh, List.mem_append, List.mem_map]
        exact Or.inl ⟨q₂, hq₂, rfl⟩
      · rcases chSet_some_paths_mem rest k n v q hwf'.2.1 hlk hq with h | h
        · left
          simp only [chSet, if_neg hs, pathsCh, List.mem_append]
          exact Or.inr h
        · exact Or.inr h

theorem insertSegs_crash :
    ∀ (segs : List String) (cs : Children) (p : List String) (info : FileInfo)
      (age : Option Int), wfCh cs → p ∈ pathsCh cs → p <+: segs → p ≠ segs →
      insertSegs cs segs info age = none := by
  intro segs
  induction segs with
  | nil =>
    intro cs p info age _ _ hpre hne
    exact absurd (List.prefix_nil.mp hpre) hne
  | cons k rest ih =>
    intro cs p info age hwf hp hpre hne
    have hpne : p ≠ [] := pathsCh_ne_nil_mem cs p hp
    obtain ⟨k', p', rfl⟩ : ∃ k' p', p = k' :: p' := by
      cases p with
      | nil => exact absurd rfl hpne
      | cons x xs => exact ⟨x, xs, rfl⟩
    obtain ⟨rfl, hpre'⟩ := List.cons_prefix_cons.mp hpre
    obtain ⟨n, hlk, hp'⟩ := paths_to_lookup cs k' p' hwf hp
    cases rest with
    | nil =>
      have : p' = [] := List.prefix_nil.mp hpre'
      subst this
      exact absurd rfl hne
    | cons k2 rest2 =>
      cases n with
      | file i a =>
        simp only [insertSegs, hlk]
      | dir sub =>
        have hp'' : p' ∈ pathsCh sub := by simpa [pathsNode] using hp'
        have hp'ne : p' ≠ [] := pathsCh_ne_nil_mem sub p' hp''
        have hne' : p' ≠ k2 :: rest2 := fun h => hne (by rw [h])
        have hwfsub : wfCh sub := by
          have := wf_lookup cs k' _ hwf hlk
          simpa [wfNode] using this.2
        simp only [insertSegs, hlk,
          ih sub p' info age hwfsub hp'' hpre' hne']
        rfl

theorem insertSegs_adds :
    ∀ (segs : List String) (cs : Children) (info : FileInfo) (age : Option Int)
      (cs' : Children), insertSegs cs segs info age = some cs' → segs ∈ pathsCh cs' := by
  intro segs
  induction segs with
  | nil => intro cs info age cs' h; simp [insertSegs] at h
  | cons k rest ih =>
    intro cs info age cs' h
    cases rest with
    | nil =>
      simp only [insertSegs, Option.some.injEq] at h
      subst h
      exact chLookup_paths_mem _ k _ (chSet_lookup_self cs k _) [] (by simp [pathsNode])
    | cons k2 rest2 =>
      cases hlk : chLookup cs k with
      | none =>
        simp only [insertSegs, hlk] at h
        obtain ⟨sub', hsub', rfl⟩ := Option.map_eq_some'.mp h
        have := ih .nil info age sub' hsub'
        exact chLookup_paths_mem _ k _ (chSet_lookup_self cs k _) _
          (by simpa [pathsNode] using this)
      | some n =>
        cases n with
        | file i a => simp [insertSegs, hlk] at h
        | dir sub =>
          simp only [insertSegs, hlk] at h
          obtain ⟨sub', hsub', rfl⟩ := Option.map_eq_some'.mp h
          have := ih sub info age sub' hsub'
          exact chLookup_paths_mem _ k _ (chSet_lookup_self cs k _) _
            (by simpa [pathsNode] using this)

theorem insertSegs_wf :
    ∀ (segs : List String) (cs : Children) (info : FileInfo) (age : Option Int)
      (cs' : Children), insertSegs cs segs info age = some cs' → wfCh cs → wfCh cs' := by
  intro segs
  induction segs with
  | nil => intro cs info age cs' h; simp [insertSegs] at h
  | cons k rest ih =>
    intro cs info age cs' h hwf
    cases rest with
    | nil =>
      simp only [insertSegs, Option.some.injEq] at h
      subst h
      cases hlk : chLookup cs k with
      | none => exact wf_chSet_none cs k _ hlk hwf trivial
      | some n => exact wf_chSet_some cs k n _ hlk hwf trivial
    | cons k2 rest2 =>
      cases hlk : chLookup cs k with
      | none =>
        simp only [insertSegs, hlk] at h
        obtain ⟨sub', hsub', rfl⟩ := Option.map_eq_some'.mp h
        have hwfs := ih .nil info age sub' hsub' trivial
        refine wf_chSet_none cs k _ hlk hwf ?_
        refine ⟨?_, hwfs⟩
        intro hnil
        have := insertSegs_adds _ _ info age sub' hsub'
        rw [show pathsCh sub' = pathsNode (.dir sub') from rfl] at this
        simp only [pathsNode] at this
        rw [hnil] at this
        exact absurd this (List.not_mem_nil _)
      | some n =>
        cases n with
        | file i a => simp [insertSegs, hlk] at h
        | dir sub =>
          simp only [insertSegs, hlk] at h
          obtain ⟨sub', hsub', rfl⟩ := Option.map_eq_some'.mp h
          have hwfsub : wfCh sub := by
            have := wf_lookup cs k _ hwf hlk
            simpa [wfNode] using this.2
          have hwfs := ih sub info age sub' hsub' hwfsub
          refine wf_chSet_some cs k _ _ hlk hwf ?_
          refine ⟨?_, hwfs⟩
          intro hnil
          have := insertSegs_adds _ _ info age sub' hsub'
          simp only [pathsNode] at this ⊢
          rw [hnil] at this
          exact absurd this (List.not_mem_nil _)

theorem insertSegs_preserves :
    ∀ (segs : List String) (cs : Children) (info : FileInfo) (age : Option Int)
      (cs' : Children) (q : List String),
      insertSegs cs segs info age = some cs' → wfCh cs → q ∈ pathsCh cs →
      q ∈ pathsCh cs' ∨ segs <+: q := by
  intro segs
  induction segs with
  | nil => intro cs info age cs' q h; simp [insertSegs] at h
  | cons k rest ih =>
    intro cs info age cs' q h hwf hq
    cases rest with
    | nil =>
      simp only [insertSegs, Option.some.injEq] at h
      subst h
      cases hlk : chLookup cs k with
      | none =>
        left
        rw [chSet_none_paths cs k _ hlk]
        exact List.mem_append_left _ hq
      | some n =>
        rcases chSet_some_paths_mem cs k n _ q hwf hlk hq with h' | ⟨q₂, rfl, _⟩
        · exact Or.inl h'
        · exact Or.inr (by simp [List.cons_prefix_cons])
    | cons k2 rest2 =>
      cases hlk : chLookup cs k with
      | none =>
        simp only [insertSegs, hlk] at h
        obtain ⟨sub', hsub', rfl⟩ := Option.map_eq_some'.mp h
        left
        rw [chSet_none_paths cs k _ hlk]
        exact List.mem_append_left _ hq
      | some n =>
        cases n with
        | file i a => simp [insertSegs, hlk] at h
        | dir sub =>
          simp only [insertSegs, hlk] at h
          obtain ⟨sub', hsub', rfl⟩ := Option.map_eq_some'.mp h
          rcases chSet_some_paths_mem cs k _ _ q hwf hlk hq with h' | ⟨q₂, rfl, hq₂⟩
          · exact Or.inl h'
          · have hwfsub : wfCh sub := by
              have := wf_lookup cs k _ hwf hlk
              simpa [wfNode] using this.2
            rcases ih sub info age sub' q₂ hsub' hwfsub
                (by simpa [pathsNode] using hq₂) with h' | h'
            · left
              exact chLookup_paths_mem _ k _ (chSet_lookup_self cs k _) q₂
                (by simpa [pathsNode] using h')
            · exact Or.inr (by simp [List.cons_prefix_cons, h'])

theorem foldInsert_reach :
    ∀ (l : List FileInfo) (cs : Children) (ages : AgeMap) (cs' : Children),
      (l.foldlM (fun cs info => insertSegs cs (splitSegs info.rel) info
          (List.lookup info.rel ages)) cs) = some cs' →
      wfCh cs →
      wfCh cs' ∧ ∀ p ∈ pathsCh cs, ∃ p', p' ∈ pathsCh cs' ∧ p' <+: p := by
  intro l
  induction l with
  | nil =>
    intro cs ages cs' h hwf
    have h' : cs = cs' := Option.some.inj h
    subst h'
    exact ⟨hwf, fun p hp => ⟨p, hp, List.prefix_refl p⟩⟩
  | cons i rest ih =>
    intro cs ages cs' h hwf
    have h2 : (insertSegs cs (splitSegs i.rel) i (List.lookup i.rel ages)) >>=
        (fun b => rest.foldlM (fun cs info => insertSegs cs (splitSegs info.rel) info
          (List.lookup info.rel ages)) b) = some cs' := h
    cases hins : insertSegs cs (splitSegs i.rel) i (List.lookup i.rel ages) with
    | none => rw [hins] at h2; exact Option.noConfusion h2
    | some cs₁ =>
      rw [hins] at h2
      have h3 : rest.foldlM (fun cs info => insertSegs cs (splitSegs info.rel) info
          (List.lookup info.rel ages)) cs₁ = some cs' := h2
      obtain ⟨hwf', hreach⟩ := ih cs₁ ages cs' h3 (insertSegs_wf _ cs i _ cs₁ hins hwf)
      refine ⟨hwf', ?_⟩
      intro p hp
      rcases insertSegs_preserves _ cs i _ cs₁ p hins hwf hp with h₁ | h₁
      · obtain ⟨p', hp', hpre⟩ := hreach p h₁
        exact ⟨p', hp', hpre⟩
      · obtain ⟨p', hp', hpre⟩ := hreach (splitSegs i.rel)
          (insertSegs_adds _ cs i _ cs₁ hins)
        exact ⟨p', hp', hpre.trans h₁⟩

theorem buildTree_crash (l₁ l₂ l₃ : List FileInfo) (a b : FileInfo) (ages : AgeMap)
    (hpre : splitSegs a.rel <+: splitSegs b.rel)
    (hne : splitSegs a.rel ≠ splitSegs b.rel) :
    orderInfosByOldest (l₁ ++ a :: (l₂ ++ b :: l₃)) ages = none := by
  have hfold : ((l₁ ++ a :: (l₂ ++ b :: l₃)).foldlM
      (fun cs info => insertSegs cs (splitSegs info.rel) info
        (List.lookup info.rel ages)) Children.nil) = none := by
    rw [List.foldlM_append]
    cases h₁ : (l₁.foldlM (fun cs info => insertSegs cs (splitSegs info.rel) info
        (List.lookup info.rel ages)) Children.nil) with
    | none => rfl
    | some cs₁ =>
      obtain ⟨hwf₁, _⟩ := foldInsert_reach l₁ Children.nil ages cs₁ h₁ trivial
      show (insertSegs cs₁ (splitSegs a.rel) a (List.lookup a.rel ages)) >>=
          (fun c => (l₂ ++ b :: l₃).foldlM (fun cs info => insertSegs cs
            (splitSegs info.rel) info (List.lookup info.rel ages)) c) = none
      cases hins : insertSegs cs₁ (splitSegs a.rel) a (List.lookup a.rel ages) with
      | none => rfl
      | some cs₂ =>
        show ((l₂ ++ b :: l₃).foldlM (fun cs info => insertSegs cs
            (splitSegs info.rel) info (List.lookup info.rel ages)) cs₂) = none
        rw [List.foldlM_append]
        cases h₂ : (l₂.foldlM (fun cs info => insertSegs cs (splitSegs info.rel) info
            (List.lookup info.rel ages)) cs₂) with
        | none => rfl
        | some cs₃ =>
          have hwf₂ : wfCh cs₂ := insertSegs_wf _ cs₁ a _ cs₂ hins hwf₁
          obtain ⟨hwf₃, hreach⟩ := foldInsert_reach l₂ cs₂ ages cs₃ h₂ hwf₂
          obtain ⟨pref, hp', hpre'⟩ := hreach (splitSegs a.rel)
            (insertSegs_adds _ cs₁ a _ cs₂ hins)
          have hpb : pref <+: splitSegs b.rel := hpre'.trans hpre
          have hpb' : pref ≠ splitSegs b.rel := by
            intro heq
            have hle := hpre.length_le
            have h2 : pref.length ≤ (splitSegs a.rel).length := hpre'.length_le
            rw [heq] at h2
            exact hne (hpre.eq_of_length (Nat.le_antisymm hle h2))
          show (insertSegs cs₃ (splitSegs b.rel) b (List.lookup b.rel ages)) >>=
              (fun c => l₃.foldlM (fun cs info => insertSegs cs (splitSegs info.rel)
                info (List.lookup info.rel ages)) c) = none
          rw [insertSegs_crash _ cs₃ pref b _ hwf₃ hp' hpb hpb']
          rfl
  unfold orderInfosByOldest
  rw [hfold]
  rfl

/-- C10.  Counterexample to "always throws": when the *longer* path `a/b`
precedes its proper prefix `a`, the build does not throw — inserting `a`
silently replaces the directory node, dropping `a/b` from the output. -/
theorem prefix_violation_no_throw :
    orderInfosByOldest [⟨"a/b"⟩, ⟨"a"⟩] [] = some [⟨"a"⟩] := by
  decide

/-- C10 (amended).  Age-mode ordering is total only on prefix-free path sets,
but the failure mode depends on the order: (1) whenever a path that is a
proper path-prefix of a *later* path occurs in the list, the tree build
reaches a file node while descending and throws (result `none`); (2) under
the prefix-free precondition the error branch is unreachable and the build
yields a result.  (When the longer path comes first instead, the build does
not throw but silently drops the nested entry — see the counterexample.) -/
theorem tree_build_prefix_violation :
    (∀ (l₁ l₂ l₃ : List FileInfo) (a b : FileInfo) (ages : AgeMap),
        splitSegs a.rel <+: splitSegs b.rel → splitSegs a.rel ≠ splitSegs b.rel →
        orderInfosByOldest (l₁ ++ a :: (l₂ ++ b :: l₃)) ages = none) ∧
      (∀ (infos : List FileInfo) (ages : AgeMap),
        List.Pairwise (fun a b => ¬ splitSegs a.rel <+: splitSegs b.rel ∧
          ¬ splitSegs b.rel <+: splitSegs a.rel) infos →
        (orderInfosByOldest infos ages).isSome) := by
  constructor
  · exact fun l₁ l₂ l₃ a b ages hpre hne => buildTree_crash l₁ l₂ l₃ a b ages hpre hne
  · intro infos ages hfree
    obtain ⟨l, hl, _⟩ := orderInfos_perm_of_prefixFree infos ages hfree
    rw [hl]
    rfl

/-- C10 witness: inserting `a` before `a/b` throws. -/
theorem tree_build_prefix_violation_witness :
    (splitSegs ("a") <+: splitSegs ("a/b") ∧ splitSegs ("a") ≠ splitSegs ("a/b")) ∧
      orderInfosByOldest ([] ++ (⟨"a"⟩ : FileInfo) :: ([] ++ ⟨"a/b"⟩ :: [])) [] = none :=
  ⟨⟨by decide, by decide⟩,
    tree_build_prefix_violation.1 [] [] [] ⟨"a"⟩ ⟨"a/b"⟩ [] (by decide) (by decide)⟩

theorem assocSet_lookup_self : ∀ (A : AgeMap) (k : String) (t : Int),
    List.lookup k (assocSet A k t) = some t
  | [], k, t => by simp [assocSet, List.lookup]
  | (k', v) :: rest, k, t => by
    by_cases h : k' = k
    · subst h; simp [assocSet, List.lookup]
    · have hbeq : (k == k') = false := by
        simp [show k ≠ k' from fun hk => h hk.symm]
      simp only [assocSet, if_neg h, List.lookup, hbeq]
      exact assocSet_lookup_self rest k t

theorem assocSet_lookup_ne : ∀ (A : AgeMap) (q k : String) (t : Int), q ≠ k →
    List.lookup q (assocSet A k t) = List.lookup q A
  | [], q, k, t, h => by
    have hbeq : (q == k) = false := by simp [h]
    simp [assocSet, List.lookup, hbeq]
  | (k', v) :: rest, q, k, t, h => by
    by_cases hk : k' = k
    · subst hk
      have hbeq : (q == k') = false := by simp [h]
      simp [assocSet, List.lookup, hbeq]
    · by_cases hq : q = k'
      · subst hq
        simp [assocSet, if_neg hk, List.lookup]
      · have hbeq : (q == k') = false := by simp [hq]
        simp only [assocSet, if_neg hk, List.lookup, hbeq]
        exact assocSet_lookup_ne rest q k t h

theorem fallbackAge_eq (out : String) :
    fallbackAge out = ((wsTokens out).getLast?).bind (fun tok => jsNumberFinite tok) := by
  unfold fallbackAge
  cases (wsTokens out).getLast? <;> rfl

theorem fallbackPhase_not_mem :
    ∀ (ps : List String) (f : String → Option String) (A : AgeMap) (rel : String),
      rel ∉ ps → List.lookup rel (fallbackPhase f ps A) = List.lookup rel A := by
  intro ps
  induction ps with
  | nil => intro f A rel _; rfl
  | cons p ps ih =>
    intro f A rel hrel
    have hne : rel ≠ p := fun h => hrel (h ▸ List.mem_cons_self p ps)
    have hrel' : rel ∉ ps := fun h => hrel (List.mem_cons_of_mem p h)
    show List.lookup rel (fallbackPhase f ps
      (match f p with
       | none => A
       | some out => match fallbackAge out with
         | some t => assocSet A p t
         | none => A)) = List.lookup rel A
    cases hf : f p with
    | none => exact ih f A rel hrel'
    | some out =>
      dsimp only
      cases hage : fallbackAge out with
      | some t =>
        simp only [hage]
        rw [ih f (assocSet A p t) rel hrel']
        exact assocSet_lookup_ne A rel p t hne
      | none =>
        simp only [hage]
        exact ih f A rel hrel'

/-- C7.  The fallback phase of age resolution: (1) each still-pending path's
age after the fallback phase is exactly the finite `Number` parse of the last
whitespace-separated token of its own per-file query output — absent when the
query fails or yields no finite token, leaving the path unrecorded; (2) the
phase consults the query function only on pending paths; (3) under the
prefix-free precondition, a path that is absent from the final age record
never makes the ordering fail — the tree build succeeds for *any* age record,
assigning absent paths the sort-last sentinel (`none`, the embedded
`POSITIVE_INFINITY`). -/
theorem fallback_phase_behaviour :
    (∀ (f : String → Option String) (pending : List String) (A : AgeMap) (rel : String),
        pending.Nodup → rel ∈ pending → List.lookup rel A = none →
        List.lookup rel (fallbackPhase f pending A) =
          (f rel).bind (fun out => ((wsTokens out).getLast?).bind
            (fun tok => jsNumberFinite tok))) ∧
      (∀ (f g : String → Option String) (pending : List String) (A : AgeMap),
        (∀ r ∈ pending, f r = g r) →
        fallbackPhase f pending A = fallbackPhase g pending A) ∧
      (∀ (infos : List FileInfo) (ages ages' : AgeMap),
        List.Pairwise (fun a b => ¬ splitSegs a.rel <+: splitSegs b.rel ∧
          ¬ splitSegs b.rel <+: splitSegs a.rel) infos →
        (orderInfosByOldest infos ages).isSome ∧
          (orderInfosByOldest infos ages).isSome =
            (orderInfosByOldest infos ages').isSome) := by
  refine ⟨?_, ?_, ?_⟩
  · intro f pending
    induction pending with
    | nil => intro A rel _ h; exact absurd h (List.not_mem_nil rel)
    | cons p ps ih =>
      intro A rel hnd hmem hA
      show List.lookup rel (fallbackPhase f ps
        (match f p with
         | none => A
         | some out => match fallbackAge out with
           | some t => assocSet A p t
           | none => A)) =
        (f rel).bind (fun out => ((wsTokens out).getLast?).bind
          (fun tok => jsNumberFinite tok))
      by_cases hp : p = rel
      · subst hp
        have hout : p ∉ ps := (List.nodup_cons.mp hnd).1
        cases hf : f p with
        | none =>
          dsimp only
          rw [fallbackPhase_not_mem ps f A p hout, hA]
          rfl
        | some out =>
          dsimp only
          cases hage : fallbackAge out with
          | some t =>
            simp only [hage]
            rw [fallbackPhase_not_mem ps f (assocSet A p t) p hout,
              assocSet_lookup_self A p t]
            show some t = ((wsTokens out).getLast?).bind (fun tok => jsNumberFinite tok)
            rw [← fallbackAge_eq, hage]
          | none =>
            simp only [hage]
            rw [fallbackPhase_not_mem ps f A p hout, hA]
            show (none : Option Int) =
              ((wsTokens out).getLast?).bind (fun tok => jsNumberFinite tok)
            rw [← fallbackAge_eq, hage]
      · have hmem' : rel ∈ ps := by
          rcases List.mem_cons.mp hmem with h | h
          · exact absurd h.symm hp
          · exact h
        have hnd' : ps.Nodup := (List.nodup_cons.mp hnd).2
        cases hf : f p with
        | none =>
          exact ih A rel hnd' hmem' hA
        | some out =>
          dsimp only
          cases hage : fallbackAge out with
          | some t =>
            simp only [hage]
            refine ih (assocSet A p t) rel hnd' hmem' ?_
            rw [assocSet_lookup_ne A rel p t (fun h => hp h.symm)]
            exact hA
          | none =>
            simp only [hage]
            exact ih A rel hnd' hmem' hA
  · intro f g pending
    induction pending with
    | nil => intro A _; rfl
    | cons p ps ih =>
      intro A hfg
      have hfp : f p = g p := hfg p (List.mem_cons_self p ps)
      show fallbackPhase f ps
          (match f p with
           | none => A
           | some out => match fallbackAge out with
             | some t => assocSet A p t
             | none => A) =
        fallbackPhase g ps
          (match g p with
           | none => A
           | some out => match fallbackAge out with
             | some t => assocSet A p t
             | none => A)
      rw [hfp]
      exact ih _ (fun r hr => hfg r (List.mem_cons_of_mem p hr))
  · intro infos ages ages' hfree
    obtain ⟨l, hl, _⟩ := orderInfos_perm_of_prefixFree infos ages hfree
    obtain ⟨l', hl', _⟩ := orderInfos_perm_of_prefixFree infos ages' hfree
    rw [hl, hl']
    exact ⟨rfl, rfl⟩

/-- C7 witness: with pending path `a.txt` whose per-file query output is a
two-line history ending in token `42`, the fallback records 42; path `b.txt`
with a failing query stays absent. -/
theorem fallback_phase_behaviour_witness :
    (["a.txt", "b.txt"] : List String).Nodup ∧
      List.lookup ("a.txt")
          (fallbackPhase
            (fun r => if r = "a.txt" then some ("99 42") else none)
            ["a.txt", "b.txt"] []) =
        ((fun r : String => if r = "a.txt" then some ("99 42") else none) ("a.txt")).bind
          (fun out => ((wsTokens out).getLast?).bind (fun tok => jsNumberFinite tok)) :=
  ⟨by decide,
    fallback_phase_behaviour.1 (fun r => if r = "a.txt" then some ("99 42") else none)
      ["a.txt", "b.txt"] [] "a.txt" (by decide) (by decide) rfl⟩

end Rendergit
